import Mathlib

/-!
# go-herald: verification of the spec against the source

This file embeds the go-herald hub (`herald.go` / `client.go`, in the
revision carrying per-client `closedChan` coordination), its message
codec boundary (`message.go` together with the `encoding/json`
marshalling used by `readLoop`/`writeLoop`), and the `Clients()` slice
semantics, and proves or refutes the frozen claims about them.

Sections:
1. The message codec: a model of `json.Marshal`/`json.Unmarshal` as used
   on the `Message` struct (type discriminator + raw JSON payload).
2. The hub control loop and the per-session pumps as a labelled
   transition system.
3. A Go-slice aliasing model for `Clients()` and the in-place removal
   performed by the control loop.
4. A functional model of `writeLoop`.
-/

namespace Herald

/-! ## 1. Message codec model

`Message` is the envelope: a string discriminator (`Type`) and a raw
JSON payload (`Data`, Go's `json.RawMessage`).  We model bytes as
`List Char`.  A Go `nil` raw message is not modelled (payloads built by
`NewMessage` are never nil); the empty list models an empty (non-nil)
raw message. -/

structure Msg where
  type : String
  data : List Char
deriving DecidableEq

/-- Left and right curly brace characters (0x7b, 0x7d). -/
def lbrace : Char := Char.ofNat 123

def rbrace : Char := Char.ofNat 125

/-- JSON insignificant whitespace, as in Go's scanner `isSpace`. -/
def isJsonWs (c : Char) : Bool :=
  c = ' ' || c = '\t' || c = '\n' || c = '\r'

/-- Drop leading JSON whitespace. -/
def dropWs : List Char → List Char
  | [] => []
  | c :: rest => if isJsonWs c then dropWs rest else c :: rest

def isHexDig (c : Char) : Bool :=
  ('0' ≤ c && c ≤ '9') || ('a' ≤ c && c ≤ 'f') || ('A' ≤ c && c ≤ 'F')

def hexVal (c : Char) : Nat :=
  if '0' ≤ c && c ≤ '9' then c.toNat - '0'.toNat
  else if 'a' ≤ c && c ≤ 'f' then c.toNat - 'a'.toNat + 10
  else c.toNat - 'A'.toNat + 10

/-- Lower-case hex digit for `n < 16`, as Go's encoder emits. -/
def hexDigLower (n : Nat) : Char :=
  if n < 10 then Char.ofNat ('0'.toNat + n) else Char.ofNat ('a'.toNat + n - 10)

/-- Scan the body of a JSON string after the opening quote, per Go's
scanner (`stateInString`): any char except `"`, `\` and controls is
taken verbatim; `\` must introduce one of the eight simple escapes or
`\uXXXX` with four hex digits.  Returns the body (escapes kept verbatim)
and the remainder after the closing quote. -/
def scanStringContent : List Char → Option (List Char × List Char)
  | [] => none
  | c :: rest =>
    if c = '"' then some ([], rest)
    else if c = '\\' then
      match rest with
      | 'u' :: h1 :: h2 :: h3 :: h4 :: rest4 =>
        if isHexDig h1 && isHexDig h2 && isHexDig h3 && isHexDig h4 then
          match scanStringContent rest4 with
          | some (cs, r) => some ('\\' :: 'u' :: h1 :: h2 :: h3 :: h4 :: cs, r)
          | none => none
        else none
      | e :: rest2 =>
        if e = '"' || e = '\\' || e = '/' || e = 'b' || e = 'f' ||
            e = 'n' || e = 'r' || e = 't' then
          match scanStringContent rest2 with
          | some (cs, r) => some ('\\' :: e :: cs, r)
          | none => none
        else none
      | [] => none
    else if c.toNat < 0x20 then none
    else
      match scanStringContent rest with
      | some (cs, r) => some (c :: cs, r)
      | none => none

/-- Take the maximal run of leading decimal digits. -/
def takeDigits : List Char → List Char × List Char
  | [] => ([], [])
  | c :: rest =>
    if c.isDigit then
      let p := takeDigits rest
      (c :: p.1, p.2)
    else ([], c :: rest)

/-- Scan a JSON number literal per Go's scanner:
`-? (0 | [1-9][0-9]*) (. [0-9]+)? ([eE] [+-]? [0-9]+)?`.
Returns the literal and the remainder. -/
def scanNumber (s : List Char) : Option (List Char × List Char) :=
  match s with
  | [] => none
  | c0 :: rest0 =>
    if c0 = '-' then scanNumberInt rest0 ['-']
    else scanNumberInt (c0 :: rest0) []
where
  /-- Integer part: `0` or a nonzero digit with its digit run. -/
  scanNumberInt (s : List Char) (sign : List Char) :
      Option (List Char × List Char) :=
    match s with
    | [] => none
    | c :: rest =>
      if c = '0' then scanNumberFrac (sign ++ ['0']) rest
      else if c.isDigit then
        let p := takeDigits rest
        scanNumberFrac (sign ++ c :: p.1) p.2
      else none
  /-- Optional fraction part, then exponent. -/
  scanNumberFrac (acc : List Char) (s : List Char) :
      Option (List Char × List Char) :=
    match s with
    | c :: rest =>
      if c = '.' then
        match takeDigits rest with
        | ([], _) => none
        | (ds, r2) => scanNumberExp (acc ++ '.' :: ds) r2
      else scanNumberExp acc (c :: rest)
    | [] => scanNumberExp acc []
  /-- Optional exponent part. -/
  scanNumberExp (acc : List Char) (s : List Char) :
      Option (List Char × List Char) :=
    match s with
    | c :: rest =>
      if c = 'e' ∨ c = 'E' then scanNumberExpSign acc [c] rest
      else some (acc, c :: rest)
    | [] => some (acc, [])
  scanNumberExpSign (acc pre : List Char) (s : List Char) :
      Option (List Char × List Char) :=
    match s with
    | c :: rest =>
      if c = '+' ∨ c = '-' then
        match takeDigits rest with
        | ([], _) => none
        | (ds, r2) => some (acc ++ pre ++ c :: ds, r2)
      else
        match takeDigits (c :: rest) with
        | ([], _) => none
        | (ds, r2) => some (acc ++ pre ++ ds, r2)
    | [] => none

/- The JSON value shape kept token-verbatim: number literals and string
bodies (escapes included) are stored exactly as they appeared, which is
what Go's `compact` preserves and what a `json.RawMessage` capture
returns. -/
mutual
inductive RawJson where
  | jnull
  | jtrue
  | jfalse
  | jnum (lit : List Char)
  | jstr (body : List Char)
  | jarr (elems : RawElems)
  | jobj (fields : RawFields)

inductive RawElems where
  | nil
  | cons (hd : RawJson) (tl : RawElems)

inductive RawFields where
  | nil
  | cons (key : List Char) (val : RawJson) (tl : RawFields)
end

/- Parser for the grammar accepted by Go's JSON scanner/decoder.  The
fuel argument only bounds recursion; `compactFn` passes enough for any
input it is given.  Whitespace is allowed where the scanner allows it
(between any two tokens); a value itself must start at its first
character. -/
mutual
def parseValue : Nat → List Char → Option (RawJson × List Char)
  | 0, _ => none
  | Nat.succ f, s =>
    match s with
    | [] => none
    | c :: rest =>
      if c = 'n' then
        match rest with
        | 'u' :: 'l' :: 'l' :: r => some (.jnull, r)
        | _ => none
      else if c = 't' then
        match rest with
        | 'r' :: 'u' :: 'e' :: r => some (.jtrue, r)
        | _ => none
      else if c = 'f' then
        match rest with
        | 'a' :: 'l' :: 's' :: 'e' :: r => some (.jfalse, r)
        | _ => none
      else if c = '"' then
        match scanStringContent rest with
        | some (body, r) => some (.jstr body, r)
        | none => none
      else if c = '[' then
        match dropWs rest with
        | ']' :: r => some (.jarr .nil, r)
        | s1 =>
          match parseElems f s1 with
          | some (es, r) => some (.jarr es, r)
          | none => none
      else if c = lbrace then
        match dropWs rest with
        | r0 =>
          match r0 with
          | d :: r =>
            if d = rbrace then some (.jobj .nil, r)
            else
              match parseFields f r0 with
              | some (fs, r2) => some (.jobj fs, r2)
              | none => none
          | [] => none
      else
        match scanNumber s with
        | some (lit, r) => some (.jnum lit, r)
        | none => none

def parseElems : Nat → List Char → Option (RawElems × List Char)
  | 0, _ => none
  | Nat.succ f, s =>
    match parseValue f s with
    | none => none
    | some (v, r) =>
      match dropWs r with
      | ',' :: r2 =>
        match parseElems f (dropWs r2) with
        | some (es, r3) => some (.cons v es, r3)
        | none => none
      | ']' :: r2 => some (.cons v .nil, r2)
      | _ => none

def parseFields : Nat → List Char → Option (RawFields × List Char)
  | 0, _ => none
  | Nat.succ f, s =>
    match s with
    | '"' :: rest =>
      match scanStringContent rest with
      | none => none
      | some (k, r) =>
        match dropWs r with
        | ':' :: r2 =>
          match parseValue f (dropWs r2) with
          | none => none
          | some (v, r3) =>
            match dropWs r3 with
            | ',' :: r4 =>
              match parseFields f (dropWs r4) with
              | some (fs, r5) => some (.cons k v fs, r5)
              | none => none
            | d :: r4 =>
              if d = rbrace then some (.cons k v .nil, r4)
              else none
            | [] => none
        | _ => none
    | _ => none
end

/-- The byte rewriting Go's `compact` applies with HTML escaping on:
`<`, `>`, `&` and the separators U+2028 / U+2029 become `\u00xx`
sequences; every other byte is copied. -/
def escHtmlChar (c : Char) : List Char :=
  if c = '<' then ['\\', 'u', '0', '0', '3', 'c']
  else if c = '>' then ['\\', 'u', '0', '0', '3', 'e']
  else if c = '&' then ['\\', 'u', '0', '0', '2', '6']
  else if c.toNat = 0x2028 then ['\\', 'u', '2', '0', '2', '8']
  else if c.toNat = 0x2029 then ['\\', 'u', '2', '0', '2', '9']
  else [c]

/- Render a parsed value the way Go's `compact` emits it: tokens
verbatim, no whitespace, HTML-escapable bytes rewritten.  (In valid
JSON such bytes can only occur inside string bodies and, vacuously,
number literals.) -/
mutual
def renderCompact : RawJson → List Char
  | .jnull => ['n', 'u', 'l', 'l']
  | .jtrue => ['t', 'r', 'u', 'e']
  | .jfalse => ['f', 'a', 'l', 's', 'e']
  | .jnum lit => lit.flatMap escHtmlChar
  | .jstr body => '"' :: body.flatMap escHtmlChar ++ ['"']
  | .jarr es => '[' :: renderElems es ++ [']']
  | .jobj fs => lbrace :: renderFields fs ++ [rbrace]

def renderElems : RawElems → List Char
  | .nil => []
  | .cons v tl => renderCompact v ++ renderElemsTail tl

def renderElemsTail : RawElems → List Char
  | .nil => []
  | .cons v tl => ',' :: renderCompact v ++ renderElemsTail tl

def renderFields : RawFields → List Char
  | .nil => []
  | .cons k v tl =>
      '"' :: k.flatMap escHtmlChar ++ '"' :: ':' :: renderCompact v ++
        renderFieldsTail tl

def renderFieldsTail : RawFields → List Char
  | .nil => []
  | .cons k v tl =>
      ',' :: '"' :: k.flatMap escHtmlChar ++ '"' :: ':' :: renderCompact v ++
        renderFieldsTail tl
end

/-- Go's `json.compact` as used by `Marshal` on a `json.RawMessage`
field: validate the raw bytes against the JSON grammar, strip
insignificant whitespace, rewrite HTML-escapable bytes; error on
anything else (in particular on empty input, "unexpected end of JSON
input").  The fuel passed to the parser is comfortably larger than the
number of parser steps any input of this length can require. -/
def compactFn (d : List Char) : Except String (List Char) :=
  match parseValue (4 * d.length + 4) (dropWs d) with
  | none => .error "unexpected end of JSON input"
  | some (v, rest) =>
    if (dropWs rest).isEmpty then .ok (renderCompact v)
    else .error "invalid character after top-level value"

/-- Go's encoder `appendString` escaping (HTML escaping on), applied to
one character of the discriminator string: quote, backslash, newline,
carriage return, tab, other controls as `\u00xx`, the HTML characters
and U+2028/U+2029 as `\u00xx`/`\u202x`; everything else verbatim. -/
def escGoChar (c : Char) : List Char :=
  if c = '"' then ['\\', '"']
  else if c = '\\' then ['\\', '\\']
  else if c = '\n' then ['\\', 'n']
  else if c = '\r' then ['\\', 'r']
  else if c = '\t' then ['\\', 't']
  else if c.toNat < 0x20 then
    ['\\', 'u', '0', '0', hexDigLower (c.toNat / 16), hexDigLower (c.toNat % 16)]
  else if c = '<' then ['\\', 'u', '0', '0', '3', 'c']
  else if c = '>' then ['\\', 'u', '0', '0', '3', 'e']
  else if c = '&' then ['\\', 'u', '0', '0', '2', '6']
  else if c.toNat = 0x2028 then ['\\', 'u', '2', '0', '2', '8']
  else if c.toNat = 0x2029 then ['\\', 'u', '2', '0', '2', '9']
  else [c]

def escGoString (l : List Char) : List Char := l.flatMap escGoChar

/-- Unescape a scanned JSON string body, per Go's `unquote`/`utf16`
handling: simple escapes map back, `\uXXXX` decodes a code unit,
surrogate pairs combine, lone surrogates become U+FFFD.  The fuel is
only a recursion bound; every step consumes at least one character, so
`length + 1` can never run out. -/
def unescapeBodyF : Nat → List Char → Option (List Char)
  | 0, _ => none
  | _, [] => some []
  | Nat.succ f, c :: rest =>
    if c = '\\' then
      match rest with
      | 'u' :: h1 :: h2 :: h3 :: h4 :: rest4 =>
        if isHexDig h1 && isHexDig h2 && isHexDig h3 && isHexDig h4 then
          let n := ((hexVal h1 * 16 + hexVal h2) * 16 + hexVal h3) * 16 + hexVal h4
          if 0xD800 ≤ n ∧ n < 0xDC00 then
            match rest4 with
            | '\\' :: 'u' :: g1 :: g2 :: g3 :: g4 :: rest8 =>
              if isHexDig g1 && isHexDig g2 && isHexDig g3 && isHexDig g4 then
                let m := ((hexVal g1 * 16 + hexVal g2) * 16 + hexVal g3) * 16 + hexVal g4
                if 0xDC00 ≤ m ∧ m < 0xE000 then
                  match unescapeBodyF f rest8 with
                  | some cs =>
                      some (Char.ofNat
                        (0x10000 + (n - 0xD800) * 0x400 + (m - 0xDC00)) :: cs)
                  | none => none
                else
                  match unescapeBodyF f rest4 with
                  | some cs => some (Char.ofNat 0xFFFD :: cs)
                  | none => none
              else none
            | _ =>
              match unescapeBodyF f rest4 with
              | some cs => some (Char.ofNat 0xFFFD :: cs)
              | none => none
          else if 0xDC00 ≤ n ∧ n < 0xE000 then
            match unescapeBodyF f rest4 with
            | some cs => some (Char.ofNat 0xFFFD :: cs)
            | none => none
          else
            match unescapeBodyF f rest4 with
            | some cs => some (Char.ofNat n :: cs)
            | none => none
        else none
      | e :: rest2 =>
        let c? : Option Char :=
          if e = '"' then some '"'
          else if e = '\\' then some '\\'
          else if e = '/' then some '/'
          else if e = 'b' then some (Char.ofNat 8)
          else if e = 'f' then some (Char.ofNat 12)
          else if e = 'n' then some '\n'
          else if e = 'r' then some '\r'
          else if e = 't' then some '\t'
          else none
        match c? with
        | some c2 =>
          match unescapeBodyF f rest2 with
          | some cs => some (c2 :: cs)
          | none => none
        | none => none
      | [] => none
    else
      match unescapeBodyF f rest with
      | some cs => some (c :: cs)
      | none => none

def unescapeBody (l : List Char) : Option (List Char) :=
  unescapeBodyF (l.length + 1) l

/-- `json.Marshal` on a `Message` value: emit the two struct fields in
declaration order, the discriminator through the encoder's string
escaping and the payload through `compact` (which fails on a payload
that is not valid JSON — notably an empty one). -/
def encodeMessage (m : Msg) : Except String (List Char) :=
  match compactFn m.data with
  | .error e => .error e
  | .ok d =>
    .ok (lbrace :: '"' :: 't' :: 'y' :: 'p' :: 'e' :: '"' :: ':' ::
      '"' :: escGoString m.type.toList ++ '"' :: ',' ::
      '"' :: 'd' :: 'a' :: 't' :: 'a' :: '"' :: ':' :: d ++ [rbrace])

/-- Whether `json.Marshal` succeeds on this message; `writeLoop` breaks
out of its loop exactly when this is false for the dequeued message. -/
def marshalOk (m : Msg) : Bool :=
  match encodeMessage m with
  | .ok _ => true
  | .error _ => false

/-- One step of `json.Unmarshal`'s object traversal for the `Message`
struct: parse a field, capture the raw extent of the value (what a
`json.RawMessage` target stores), assign `type`/`data` by exact key
match (later duplicates overwrite, unknown keys are skipped).  Fuel
bounds the field count.  Go additionally accepts case-insensitive key
matches, which encoder output never exercises. -/
def decodeFields : Nat → List Char → Msg → Option (Msg × List Char)
  | 0, _, _ => none
  | Nat.succ f, s, acc =>
    match dropWs s with
    | '"' :: rest =>
      match scanStringContent rest with
      | none => none
      | some (kbody, r) =>
        match unescapeBody kbody with
        | none => none
        | some kchars =>
          match dropWs r with
          | ':' :: r2 =>
            let sv := dropWs r2
            match parseValue (4 * sv.length + 4) sv with
            | none => none
            | some (v, after) =>
              let raw := sv.take (sv.length - after.length)
              let acc? : Option Msg :=
                if kchars = ['t', 'y', 'p', 'e'] then
                  match v with
                  | .jstr body =>
                    match unescapeBody body with
                    | some tchars => some { acc with type := String.mk tchars }
                    | none => none
                  | _ => none
                else if kchars = ['d', 'a', 't', 'a'] then
                  some { acc with data := raw }
                else some acc
              match acc? with
              | none => none
              | some acc2 =>
                match dropWs after with
                | ',' :: r3 => decodeFields f r3 acc2
                | d :: r3 => if d = rbrace then some (acc2, r3) else none
                | [] => none
          | _ => none
    | _ => none

/-- `json.Unmarshal` of a byte slice into a `Message`: the top-level
value must be an object (or `null`, which leaves the zero value), with
no trailing non-whitespace. -/
def decodeMessage (s : List Char) : Option Msg :=
  match dropWs s with
  | 'n' :: 'u' :: 'l' :: 'l' :: r =>
    if (dropWs r).isEmpty then some { type := "", data := [] } else none
  | c :: rest =>
    if c = lbrace then
      match dropWs rest with
      | d :: r =>
        if d = rbrace then
          if (dropWs r).isEmpty then some { type := "", data := [] } else none
        else
          match decodeFields (rest.length + 1) rest { type := "", data := [] } with
          | some (m, after) =>
            if (dropWs after).isEmpty then some m else none
          | none => none
      | [] => none
    else none
  | [] => none

/-! ## 2. Hub control loop and session pumps

A labelled transition system for `Herald.run` together with the two
pumps of each `Client` (`readLoop`/`writeLoop`), in the revision where a
client carries `writeClosedChan` and `closedChan` and the hub waits on
both the read channel and the closed channel of every listed client.

Clients are identified by `Nat` (pointer identity).  `cs` is the heap of
per-client channel/pump state, kept even for clients no longer in the
active list (their pointers survive, and `Send` may still target them).
The hub-side fields mirror the code exactly:

* `readOpen` — `readChan` has not been closed by `readLoop`;
* `readFieldNil` / `writeFieldNil` — the hub executed
  `c.readChan = nil` / `c.writeChan = nil`;
* `q` — the contents of the buffered `writeChan` (capacity 10);
* `qClosed` — the hub executed `close(c.writeChan)`;
* `wlDone` — `writeClosedChan` is closed, i.e. `writeLoop` returned;
* `rlWaiting` — `readLoop` left its read loop and is in its deferred
  `<-c.writeClosedChan` wait;
* `closed` — `closedChan` is closed (all of `readLoop`'s defers ran);
* `connOpen` — the websocket connection has not been `Close()`d. -/

structure CState where
  readOpen : Bool := true
  readFieldNil : Bool := false
  q : List Msg := []
  qClosed : Bool := false
  writeFieldNil : Bool := false
  wlDone : Bool := false
  rlWaiting : Bool := false
  closed : Bool := false
  connOpen : Bool := true
deriving DecidableEq

def initCState : CState := {}

/-- The argument of a send request: `clients == nil` (broadcast) is
distinct from an explicit, possibly empty, target slice. -/
structure SendParams where
  message : Msg
  clients : Option (List Nat)
deriving DecidableEq

structure HubState where
  clients : List Nat
  cs : Nat → CState
  added : List Nat
  shuttingDown : Bool
  stopped : Bool

def initState : HubState :=
  { clients := [], cs := fun _ => initCState, added := [],
    shuttingDown := false, stopped := false }

/-- The events one iteration of the control loop (or one step of a pump
goroutine) can react to.  Indices `i` address the current client list,
exactly as the reflect-based select does; session events carry the
client identity. -/
inductive Event where
  | recvMsg (i : Nat) (m : Msg)
  | readChanClosed (i : Nat)
  | sessionClosed (i : Nat)
  | addClient (id : Nat)
  | send (p : SendParams)
  | closeReq
  | wlConsume (id : Nat)
  | wlExit (id : Nat)
  | rlFail (id : Nat)
  | rlFinish (id : Nat)

/-- Observable effects of one step: handler invocations (each carrying
what `Clients()` would return while the handler runs) and loop
termination. -/
inductive Output where
  | handleMessage (m : Msg) (clientId : Nat)
  | clientAdded (clientId : Nat) (membershipSeen : List Nat)
  | clientRemoved (clientId : Nat) (membershipSeen : List Nat)
  | terminated
deriving DecidableEq

/-- `New()` installs `MessageHandler = func(m, c) { h.Send(m, nil) }`:
the send request the default handler forwards for an inbound message.
Note the `nil` target list and the absence of any exclusion of the
originating client. -/
def defaultHandlerParams (m : Msg) : SendParams :=
  { message := m, clients := none }

/-- One target of the send-dispatch loop:
`if c.writeChan != nil { select { case c.writeChan <- p.message: default: c.conn.Close() } }`.
`none` models the panic a send on a closed channel would raise (the
invariants show it cannot happen: the field is nil'd in the same loop
iteration that closes the channel). -/
def dispatchOne (st : CState) (m : Msg) : Option CState :=
  if st.writeFieldNil then some st
  else if st.qClosed then none
  else if st.q.length < 10 then some { st with q := st.q ++ [m] }
  else some { st with connOpen := false }

/-- Total version of `dispatchOne`, meaningful when no panic occurs. -/
def dispatchPure (st : CState) (m : Msg) : CState :=
  if st.writeFieldNil then st
  else if st.q.length < 10 then { st with q := st.q ++ [m] }
  else { st with connOpen := false }

def dispatchList (cs : Nat → CState) (m : Msg) :
    List Nat → Option (Nat → CState)
  | [] => some cs
  | t :: ts =>
    match dispatchOne (cs t) m with
    | none => none
    | some st => dispatchList (Function.update cs t st) m ts

/-- Which events the system can react to in state `s`.  For the hub
cases this mirrors the select-case list `run` assembles: one read-channel
and one closed-channel case per listed client (a nil read channel is
never ready), the registration and send channels, and the close channel
only while not shutting down. -/
def enabledB (s : HubState) (e : Event) : Bool :=
  match e with
  | .recvMsg i _ =>
    !s.stopped && i < s.clients.length &&
      !(s.cs (s.clients.getD i 0)).readFieldNil &&
      (s.cs (s.clients.getD i 0)).readOpen
  | .readChanClosed i =>
    !s.stopped && i < s.clients.length &&
      !(s.cs (s.clients.getD i 0)).readFieldNil &&
      !(s.cs (s.clients.getD i 0)).readOpen
  | .sessionClosed i =>
    !s.stopped && i < s.clients.length && (s.cs (s.clients.getD i 0)).closed
  | .addClient id => !s.stopped && !s.added.contains id
  | .send _ => !s.stopped
  | .closeReq => !s.stopped && !s.shuttingDown
  | .wlConsume id =>
    s.added.contains id && !(s.cs id).wlDone && !(s.cs id).q.isEmpty
  | .wlExit id =>
    s.added.contains id && (s.cs id).qClosed && (s.cs id).q.isEmpty &&
      !(s.cs id).wlDone
  | .rlFail id => s.added.contains id && (s.cs id).readOpen
  | .rlFinish id =>
    s.added.contains id && (s.cs id).rlWaiting && (s.cs id).wlDone &&
      !(s.cs id).closed

/-- One step of the combined system.  Hub cases follow the `switch` in
`run` (part_003 revision); session cases follow `readLoop`/`writeLoop`
(part_000 revision).  `none` models a runtime panic. -/
def step (s : HubState) (e : Event) : Option (HubState × List Output) :=
  match e with
  | .recvMsg i m =>
    some (s, [.handleMessage m (s.clients.getD i 0)])
  | .readChanClosed i =>
    let id := s.clients.getD i 0
    let st := s.cs id
    let st2 : CState :=
      { st with qClosed := true, readFieldNil := true, writeFieldNil := true }
    some ({ s with cs := Function.update s.cs id st2 }, [])
  | .sessionClosed i =>
    let id := s.clients.getD i 0
    let clients' := s.clients.eraseIdx i
    if s.shuttingDown ∧ clients' = [] then
      some ({ s with clients := clients', stopped := true },
        [.clientRemoved id clients', .terminated])
    else
      some ({ s with clients := clients' }, [.clientRemoved id clients'])
  | .addClient id =>
    some ({ s with
        clients := s.clients ++ [id],
        added := s.added ++ [id],
        cs := Function.update s.cs id initCState },
      [.clientAdded id s.clients])
  | .send p =>
    let targets := match p.clients with
      | none => s.clients
      | some ts => ts
    match dispatchList s.cs p.message targets with
    | none => none
    | some cs' => some ({ s with cs := cs' }, [])
  | .closeReq =>
    if s.clients = [] then
      some ({ s with stopped := true }, [.terminated])
    else
      let cs2 : Nat → CState := fun id =>
        if id ∈ s.clients then { s.cs id with connOpen := false } else s.cs id
      some ({ s with shuttingDown := true, cs := cs2 }, [])
  | .wlConsume id =>
    match (s.cs id).q with
    | [] => some (s, [])
    | m :: rest =>
      let st2 : CState := { s.cs id with q := rest, wlDone := !marshalOk m }
      some ({ s with cs := Function.update s.cs id st2 }, [])
  | .wlExit id =>
    let st2 : CState := { s.cs id with wlDone := true }
    some ({ s with cs := Function.update s.cs id st2 }, [])
  | .rlFail id =>
    let st2 : CState := { s.cs id with readOpen := false, rlWaiting := true }
    some ({ s with cs := Function.update s.cs id st2 }, [])
  | .rlFinish id =>
    let st2 : CState := { s.cs id with closed := true }
    some ({ s with cs := Function.update s.cs id st2 }, [])

/-- Restriction on the events an execution may contain; instantiated
with `fun _ => true` (no restriction) or `goodSends` (all sent messages
marshal, which holds when payloads come from `NewMessage` or from
decoded inbound frames). -/
def goodSends (e : Event) : Bool :=
  match e with
  | .send p => marshalOk p.message
  | _ => true

/-- Reachability of the combined system under an event filter. -/
inductive Reach (ok : Event → Bool) : HubState → Prop where
  | init : Reach ok initState
  | next (s : HubState) (e : Event) (s' : HubState) (out : List Output) :
      Reach ok s → enabledB s e = true → ok e = true →
      step s e = some (s', out) → Reach ok s'

/-! ## 3. Go slice semantics of `Clients()`

`Clients()` is `h.mutex.RLock(); defer ...; return h.clients`: it
returns the slice *header* (array pointer + length), not a copy of the
elements.  The control loop's removal
`h.clients = append(h.clients[:chosen], h.clients[chosen+1:]...)`
shifts the tail one slot left inside the same backing array whenever the
capacity suffices (it always does for a removal).  This section models
exactly that memory behaviour. -/

/-- A Go slice header over a `Nat`-identified backing array. -/
structure GoSlice where
  arrId : Nat
  len : Nat
deriving DecidableEq

/-- The memory relevant to `h.clients`: backing arrays (a list models an
array of length = capacity), the live header, and a fresh-id counter for
reallocations. -/
structure SliceState where
  heap : Nat → List Nat
  clientsSlice : GoSlice
  nextArr : Nat

/-- Dereference a slice header: the first `len` cells of its array. -/
def readSlice (heap : Nat → List Nat) (sl : GoSlice) : List Nat :=
  (heap sl.arrId).take sl.len

/-- `Clients()`: returns the live header (shared backing array), under
the read lock.  No element copy is made. -/
def clientsFn (s : SliceState) : GoSlice := s.clientsSlice

/-- The removal in `run`:
`h.clients = append(h.clients[:i], h.clients[i+1:]...)`.
`h.clients[:i]` keeps the backing array, whose capacity exceeds the
result length, so `append` copies `h.clients[i+1:n]` into cells
`i..n-2` of the same array; cell `n-1` retains its old value; the new
header has length `n-1`. -/
def removeAt (s : SliceState) (i : Nat) : SliceState :=
  let a := s.heap s.clientsSlice.arrId
  let n := s.clientsSlice.len
  let a2 := a.take i ++ (a.take n).drop (i + 1) ++ a.drop (n - 1)
  { s with
      heap := Function.update s.heap s.clientsSlice.arrId a2,
      clientsSlice := { s.clientsSlice with len := n - 1 } }

/-- The registration append `h.clients = append(h.clients, c)`: writes
in place when spare capacity exists (mutating the shared array beyond
every older header's length), otherwise moves to a fresh array of
doubled capacity, leaving old arrays untouched. -/
def appendAt (s : SliceState) (id : Nat) : SliceState :=
  let a := s.heap s.clientsSlice.arrId
  let n := s.clientsSlice.len
  if n < a.length then
    { s with
        heap := Function.update s.heap s.clientsSlice.arrId (a.set n id),
        clientsSlice := { s.clientsSlice with len := n + 1 } }
  else
    let a2 := a.take n ++ id :: List.replicate n 0
    { s with
        heap := Function.update s.heap s.nextArr a2,
        clientsSlice := { arrId := s.nextArr, len := n + 1 },
        nextArr := s.nextArr + 1 }

/-! ## 4. The outbound pump `writeLoop` as a function

`writeLoop` (part_000 revision) ranges over `writeChan`, marshals each
message — breaking out of the loop if `json.Marshal` fails — and calls
`c.conn.WriteMessage(websocket.TextMessage, b)` *discarding its result*.
The transport's write outcomes are threaded as an oracle `writeOk` so
that their irrelevance to the pump's control flow is a provable fact
rather than an artifact of the model.  The deferred
`close(c.writeClosedChan)` runs on every exit path (`signaled`). -/

structure WLResult where
  attempts : List Msg
  connClosed : Bool
  signaled : Bool
deriving DecidableEq

/-- Run the pump over the full contents of a queue that is closed after
these messages (a `range` over a closed channel yields exactly the
buffered messages and then ends). -/
def writeLoopGo (writeOk : Nat → Bool) :
    List Msg → Nat → List Msg → WLResult
  | [], _, acc => { attempts := acc, connClosed := false, signaled := true }
  | m :: rest, k, acc =>
    if marshalOk m then
      writeLoopGo writeOk rest (k + 1) (acc ++ [m])
    else
      { attempts := acc, connClosed := false, signaled := true }

def writeLoopRun (queue : List Msg) (writeOk : Nat → Bool) : WLResult :=
  writeLoopGo writeOk queue 0 []

/-! ## 5. Dispatch lemmas -/

/-- Fields other than the queue and the connection flag are untouched by
one dispatch attempt. -/
theorem dispatchOne_fields {st st2 : CState} {m : Msg}
    (h : dispatchOne st m = some st2) :
    st2.readOpen = st.readOpen ∧ st2.readFieldNil = st.readFieldNil ∧
    st2.qClosed = st.qClosed ∧ st2.writeFieldNil = st.writeFieldNil ∧
    st2.wlDone = st.wlDone ∧ st2.rlWaiting = st.rlWaiting ∧
    st2.closed = st.closed := by
  unfold dispatchOne at h
  split at h
  · injection h with h; subst h; simp
  · split at h
    · exact absurd h (by simp)
    · split at h <;> (injection h with h; subst h; simp)

/-- When the channel-closed flag implies the field is nil (the invariant
the loop maintains), the try-send cannot panic and agrees with its total
version. -/
theorem dispatchOne_eq_pure {st : CState} {m : Msg}
    (h : st.qClosed = true → st.writeFieldNil = true) :
    dispatchOne st m = some (dispatchPure st m) := by
  unfold dispatchOne dispatchPure
  by_cases h1 : st.writeFieldNil = true
  · simp [h1]
  · have h2 : st.qClosed = false := by
      cases hq : st.qClosed
      · rfl
      · exact absurd (h hq) h1
    simp only [h1, h2, if_false, Bool.false_eq_true]
    split <;> rfl

theorem dispatchPure_fields (st : CState) (m : Msg) :
    (dispatchPure st m).readOpen = st.readOpen ∧
    (dispatchPure st m).readFieldNil = st.readFieldNil ∧
    (dispatchPure st m).qClosed = st.qClosed ∧
    (dispatchPure st m).writeFieldNil = st.writeFieldNil ∧
    (dispatchPure st m).wlDone = st.wlDone ∧
    (dispatchPure st m).rlWaiting = st.rlWaiting ∧
    (dispatchPure st m).closed = st.closed := by
  unfold dispatchPure
  split <;> [skip; split] <;> simp_all

/-- A send-dispatch sweep never panics while closed channels have nil
fields, and its effect is pointwise: each target (list without
duplicates) undergoes one try-send, everything else is untouched. -/
theorem dispatchList_char (m : Msg) :
    ∀ (ts : List Nat), ts.Nodup →
    ∀ cs : Nat → CState, (∀ t, (cs t).qClosed = true → (cs t).writeFieldNil = true) →
    ∃ cs2, dispatchList cs m ts = some cs2 ∧
      ∀ u, cs2 u = if u ∈ ts then dispatchPure (cs u) m else cs u := by
  intro ts
  induction ts with
  | nil =>
    intro _ cs _
    exact ⟨cs, rfl, fun u => by simp⟩
  | cons t ts ih =>
    intro hnd cs hB
    have hone := dispatchOne_eq_pure (m := m) (hB t)
    have hB2 : ∀ u, ((Function.update cs t (dispatchPure (cs t) m)) u).qClosed = true →
        ((Function.update cs t (dispatchPure (cs t) m)) u).writeFieldNil = true := by
      intro u
      by_cases hu : u = t
      · subst hu
        simp only [Function.update_same]
        rw [(dispatchPure_fields (cs u) m).2.2.1, (dispatchPure_fields (cs u) m).2.2.2.1]
        exact hB u
      · simp only [Function.update_noteq hu]
        exact hB u
    obtain ⟨cs2, hcs2, hpt⟩ := ih (List.Nodup.of_cons hnd) _ hB2
    refine ⟨cs2, ?_, ?_⟩
    · unfold dispatchList
      rw [hone]
      exact hcs2
    · intro u
      have htn : t ∉ ts := by
        intro hmem
        exact (List.nodup_cons.mp hnd).1 hmem
      by_cases hu : u = t
      · subst hu
        rw [hpt u, if_neg htn, Function.update_same, if_pos (List.mem_cons_self u ts)]
      · rw [hpt u, Function.update_noteq hu]
        by_cases hmem : u ∈ ts
        · rw [if_pos hmem, if_pos (List.mem_cons_of_mem t hmem)]
        · rw [if_neg hmem, if_neg (by simp [hu, hmem])]

/-- A target whose write-channel field is nil is skipped: its state
survives the whole sweep unchanged (duplicates allowed). -/
theorem dispatchList_skip (m : Msg) :
    ∀ (ts : List Nat) (cs : Nat → CState) (t : Nat),
    (cs t).writeFieldNil = true →
    ∀ cs2, dispatchList cs m ts = some cs2 → cs2 t = cs t := by
  intro ts
  induction ts with
  | nil =>
    intro cs t _ cs2 h
    simp only [dispatchList] at h
    injection h with h
    rw [← h]
  | cons u ts ih =>
    intro cs t ht cs2 h
    simp only [dispatchList] at h
    cases hone : dispatchOne (cs u) m with
    | none => rw [hone] at h; exact absurd h (by simp)
    | some st =>
      rw [hone] at h
      have hut : Function.update cs u st t = cs t := by
        by_cases hu : t = u
        · subst hu
          have : dispatchOne (cs t) m = some (cs t) := by
            unfold dispatchOne
            simp [ht]
          rw [this] at hone
          injection hone with hone
          rw [Function.update_same, ← hone]
        · exact Function.update_noteq hu _ _
      have := ih (Function.update cs u st) t (by rw [hut]; exact ht) cs2 h
      rw [this, hut]

/-- Any message in a queue after a sweep was there before or is the
message being sent. -/
theorem dispatchList_mem (m : Msg) :
    ∀ (ts : List Nat) (cs cs2 : Nat → CState),
    dispatchList cs m ts = some cs2 →
    ∀ u x, x ∈ (cs2 u).q → x ∈ (cs u).q ∨ x = m := by
  intro ts
  induction ts with
  | nil =>
    intro cs cs2 h u x hx
    simp only [dispatchList] at h
    injection h with h
    rw [← h] at hx
    exact Or.inl hx
  | cons t ts ih =>
    intro cs cs2 h u x hx
    simp only [dispatchList] at h
    cases hone : dispatchOne (cs t) m with
    | none => rw [hone] at h; exact absurd h (by simp)
    | some st =>
      rw [hone] at h
      rcases ih _ _ h u x hx with hin | hm
      · by_cases hu : u = t
        · subst hu
          rw [Function.update_same] at hin
          unfold dispatchOne at hone
          split at hone
          · injection hone with hone; rw [← hone] at hin; exact Or.inl hin
          · split at hone
            · exact absurd hone (by simp)
            · split at hone
              · injection hone with hone
                rw [← hone] at hin
                simp only [List.mem_append, List.mem_singleton] at hin
                rcases hin with h1 | h2
                · exact Or.inl h1
                · exact Or.inr h2
              · injection hone with hone; rw [← hone] at hin; exact Or.inl hin
        · rw [Function.update_noteq hu] at hin
          exact Or.inl hin
      · exact Or.inr hm

/-- Teardown-relevant fields survive a whole sweep. -/
theorem dispatchList_fields (m : Msg) :
    ∀ (ts : List Nat) (cs cs2 : Nat → CState),
    dispatchList cs m ts = some cs2 →
    ∀ u, (cs2 u).readOpen = (cs u).readOpen ∧
      (cs2 u).readFieldNil = (cs u).readFieldNil ∧
      (cs2 u).qClosed = (cs u).qClosed ∧
      (cs2 u).writeFieldNil = (cs u).writeFieldNil ∧
      (cs2 u).wlDone = (cs u).wlDone ∧
      (cs2 u).rlWaiting = (cs u).rlWaiting ∧
      (cs2 u).closed = (cs u).closed := by
  intro ts
  induction ts with
  | nil =>
    intro cs cs2 h u
    simp only [dispatchList] at h
    injection h with h
    rw [← h]
    exact ⟨rfl, rfl, rfl, rfl, rfl, rfl, rfl⟩
  | cons t ts ih =>
    intro cs cs2 h u
    simp only [dispatchList] at h
    cases hone : dispatchOne (cs t) m with
    | none => rw [hone] at h; exact absurd h (by simp)
    | some st =>
      rw [hone] at h
      have h1 := ih _ _ h u
      have h2 : ∀ v, (Function.update cs t st v).readOpen = (cs v).readOpen ∧
          (Function.update cs t st v).readFieldNil = (cs v).readFieldNil ∧
          (Function.update cs t st v).qClosed = (cs v).qClosed ∧
          (Function.update cs t st v).writeFieldNil = (cs v).writeFieldNil ∧
          (Function.update cs t st v).wlDone = (cs v).wlDone ∧
          (Function.update cs t st v).rlWaiting = (cs v).rlWaiting ∧
          (Function.update cs t st v).closed = (cs v).closed := by
        intro v
        by_cases hv : v = t
        · subst hv
          rw [Function.update_same]
          exact dispatchOne_fields hone
        · rw [Function.update_noteq hv]
          exact ⟨rfl, rfl, rfl, rfl, rfl, rfl, rfl⟩
      obtain ⟨a1, a2, a3, a4, a5, a6, a7⟩ := h1
      obtain ⟨b1, b2, b3, b4, b5, b6, b7⟩ := h2 u
      exact ⟨a1.trans b1, a2.trans b2, a3.trans b3, a4.trans b4,
        a5.trans b5, a6.trans b6, a7.trans b7⟩

/-! ## 6. Invariants of the combined system -/

/-- Teardown facts holding in every reachable state regardless of
message content: the client list never holds duplicates and only holds
registered clients; a session whose `closedChan` fired has a returned
`writeLoop` and a `readLoop` past its read loop; and the hub nils the
channel fields in the very iteration that closes the write channel. -/
def InvCore (s : HubState) : Prop :=
  s.clients.Nodup ∧
  (∀ id, id ∈ s.clients → id ∈ s.added) ∧
  ∀ id,
    ((s.cs id).rlWaiting = true → (s.cs id).readOpen = false) ∧
    ((s.cs id).closed = true →
      (s.cs id).wlDone = true ∧ (s.cs id).rlWaiting = true) ∧
    ((s.cs id).qClosed = true →
      (s.cs id).writeFieldNil = true ∧ (s.cs id).readFieldNil = true)

theorem reach_invCore {ok : Event → Bool} {s : HubState}
    (hr : Reach ok s) : InvCore s := by
  induction hr with
  | init =>
    refine ⟨List.nodup_nil, by simp [initState], fun u => ?_⟩
    simp [initState, initCState]
  | next s e s' out hr hen hok hst ih =>
    obtain ⟨hnd, hsub, hcs⟩ := ih
    cases e with
    | recvMsg i m =>
      simp only [step] at hst
      injection hst with hst
      injection hst with hst hout
      exact hst ▸ ⟨hnd, hsub, hcs⟩
    | readChanClosed i =>
      simp only [step] at hst
      injection hst with hst
      injection hst with hst hout
      subst hst
      refine ⟨hnd, hsub, fun u => ?_⟩
      rcases hcs u with ⟨c1, c2, c3⟩
      simp only [Function.update_apply]
      by_cases hu : u = s.clients.getD i 0
      · rw [if_pos hu]
        rw [hu] at c1 c2
        exact ⟨fun h => c1 h, fun h => c2 h, fun _ => ⟨rfl, rfl⟩⟩
      · rw [if_neg hu]
        exact ⟨c1, c2, c3⟩
    | sessionClosed i =>
      simp only [step] at hst
      split at hst <;>
      · injection hst with hst
        injection hst with hst hout
        subst hst
        exact ⟨List.Sublist.nodup (List.eraseIdx_sublist _ _) hnd,
          fun u hu => hsub u (List.Sublist.mem hu (List.eraseIdx_sublist _ _)),
          hcs⟩
    | addClient id =>
      simp only [step] at hst
      injection hst with hst
      injection hst with hst hout
      subst hst
      have hfresh : id ∉ s.added := by
        have h2 := hen
        simp only [enabledB, Bool.and_eq_true, Bool.not_eq_true'] at h2
        intro hmem
        have h3 := h2.2
        simp at h3
        exact h3 hmem
      have hfreshc : id ∉ s.clients := fun hc => hfresh (hsub id hc)
      refine ⟨by simp [List.nodup_append, hnd, hfreshc], ?_, fun u => ?_⟩
      · intro u hu
        rcases List.mem_append.mp hu with h1 | h1
        · exact List.mem_append.mpr (Or.inl (hsub u h1))
        · exact List.mem_append.mpr (Or.inr h1)
      · rcases hcs u with ⟨c1, c2, c3⟩
        simp only [Function.update_apply]
        by_cases hu : u = id
        · rw [if_pos hu]
          simp [initCState]
        · rw [if_neg hu]
          exact ⟨c1, c2, c3⟩
    | send p =>
      simp only [step] at hst
      cases hd : dispatchList s.cs p.message
          (match p.clients with | none => s.clients | some ts => ts) with
      | none => rw [hd] at hst; exact absurd hst (by simp)
      | some cs2 =>
        rw [hd] at hst
        injection hst with hst
        injection hst with hst hout
        subst hst
        refine ⟨hnd, hsub, fun u => ?_⟩
        obtain ⟨f1, f2, f3, f4, f5, f6, f7⟩ := dispatchList_fields p.message _ _ _ hd u
        rcases hcs u with ⟨c1, c2, c3⟩
        simp only [] at f1 f2 f3 f4 f5 f6 f7 ⊢
        rw [f1, f2, f3, f4, f5, f6, f7]
        exact ⟨c1, c2, c3⟩
    | closeReq =>
      simp only [step] at hst
      split at hst
      · injection hst with hst
        injection hst with hst hout
        subst hst
        exact ⟨hnd, hsub, hcs⟩
      · injection hst with hst
        injection hst with hst hout
        subst hst
        refine ⟨hnd, hsub, fun u => ?_⟩
        rcases hcs u with ⟨c1, c2, c3⟩
        by_cases hu : u ∈ s.clients
        · simp only [if_pos hu]
          exact ⟨fun h => c1 h, fun h => c2 h, fun h => c3 h⟩
        · simp only [if_neg hu]
          exact ⟨c1, c2, c3⟩
    | wlConsume id =>
      simp only [step] at hst
      cases hq : (s.cs id).q with
      | nil =>
        rw [hq] at hst
        injection hst with hst
        injection hst with hst hout
        exact hst ▸ ⟨hnd, hsub, hcs⟩
      | cons m rest =>
        rw [hq] at hst
        injection hst with hst
        injection hst with hst hout
        subst hst
        have hwl : (s.cs id).wlDone = false := by
          have h2 := hen
          simp only [enabledB, Bool.and_eq_true, Bool.not_eq_true'] at h2
          exact h2.1.2
        refine ⟨hnd, hsub, fun u => ?_⟩
        rcases hcs u with ⟨c1, c2, c3⟩
        simp only [Function.update_apply]
        by_cases hu : u = id
        · rw [if_pos hu]
          rw [hu] at c1 c2 c3
        

          refine ⟨fun h => c1 h, fun h => ?_, fun h => c3 h⟩
          exact absurd ((c2 h).1) (by simp [hwl])
        · rw [if_neg hu]
          exact ⟨c1, c2, c3⟩
    | wlExit id =>
      simp only [step] at hst
      injection hst with hst
      injection hst with hst hout
      subst hst
      refine ⟨hnd, hsub, fun u => ?_⟩
      rcases hcs u with ⟨c1, c2, c3⟩
      simp only [Function.update_apply]
      by_cases hu : u = id
      · rw [if_pos hu]
        rw [hu] at c1 c2 c3
        exact ⟨fun h => c1 h, fun h => ⟨rfl, (c2 h).2⟩, fun h => c3 h⟩
      · rw [if_neg hu]
        exact ⟨c1, c2, c3⟩
    | rlFail id =>
      simp only [step] at hst
      injection hst with hst
      injection hst with hst hout
      subst hst
      refine ⟨hnd, hsub, fun u => ?_⟩
      rcases hcs u with ⟨c1, c2, c3⟩
      simp only [Function.update_apply]
      by_cases hu : u = id
      · rw [if_pos hu]
        rw [hu] at c1 c2 c3
        exact ⟨fun _ => rfl, fun h => ⟨(c2 h).1, rfl⟩, fun h => c3 h⟩
      · rw [if_neg hu]
        exact ⟨c1, c2, c3⟩
    | rlFinish id =>
      simp only [step] at hst
      injection hst with hst
      injection hst with hst hout
      subst hst
      have hg : (s.cs id).rlWaiting = true ∧ (s.cs id).wlDone = true := by
        have h2 := hen
        simp only [enabledB, Bool.and_eq_true] at h2
        exact ⟨h2.1.1.2, h2.1.2⟩
      refine ⟨hnd, hsub, fun u => ?_⟩
      rcases hcs u with ⟨c1, c2, c3⟩
      simp only [Function.update_apply]
      by_cases hu : u = id
      · rw [if_pos hu]
        rw [hu] at c1 c2 c3
        exact ⟨fun h => c1 h, fun _ => ⟨hg.2, hg.1⟩, fun h => c3 h⟩
      · rw [if_neg hu]
        exact ⟨c1, c2, c3⟩

/-- An element of `l` missing from `l.eraseIdx i` must be the element
at index `i`. -/
theorem eq_getD_of_not_mem_eraseIdx {l : List Nat} {i u : Nat}
    (hu : u ∈ l) (hno : u ∉ l.eraseIdx i) : i < l.length ∧ u = l.getD i 0 := by
  have hi : i < l.length := by
    by_contra hge
    rw [List.eraseIdx_of_length_le (Nat.le_of_not_lt hge)] at hno
    exact hno hu
  refine ⟨hi, ?_⟩
  rw [List.eraseIdx_eq_take_drop_succ] at hno
  have hsplit : l = l.take i ++ l.drop i := (List.take_append_drop i l).symm
  rw [List.drop_eq_getElem_cons hi] at hsplit
  rw [hsplit] at hu
  rcases List.mem_append.mp hu with h1 | h1
  · exact absurd (List.mem_append.mpr (Or.inl h1)) hno
  · rcases List.mem_cons.mp h1 with h2 | h2
    · rw [List.getD_eq_getElem l 0 hi]
      exact h2
    · exact absurd (List.mem_append.mpr (Or.inr h2)) hno

/-- Facts holding in every reachable state of executions in which all
sent messages marshal (which is the case when payloads come from
`NewMessage` or from decoded frames): queues hold only marshallable
messages, so `writeLoop` can only have exited after the hub closed its
channel, and every registered client outside the active list has had its
write-channel field nil'd. -/
def InvGood (s : HubState) : Prop :=
  (∀ id m, m ∈ (s.cs id).q → marshalOk m = true) ∧
  (∀ id, (s.cs id).wlDone = true → (s.cs id).qClosed = true) ∧
  (∀ id, id ∈ s.added → id ∉ s.clients → (s.cs id).writeFieldNil = true)

theorem reach_invGood {s : HubState}
    (hr : Reach goodSends s) : InvGood s := by
  induction hr with
  | init =>
    refine ⟨fun u m hm => ?_, fun u h => ?_, fun u h _ => ?_⟩
    · simp [initState, initCState] at hm
    · simp [initState, initCState] at h
    · simp [initState] at h
  | next s e s' out hr hen hok hst ih =>
    obtain ⟨g1, g2, g3⟩ := ih
    obtain ⟨hnd, hsub, hcs⟩ := reach_invCore hr
    cases e with
    | recvMsg i m =>
      simp only [step] at hst
      injection hst with hst
      injection hst with hst hout
      exact hst ▸ ⟨g1, g2, g3⟩
    | readChanClosed i =>
      simp only [step] at hst
      injection hst with hst
      injection hst with hst hout
      subst hst
      refine ⟨fun u m hm => ?_, fun u h => ?_, fun u hadd hnc => ?_⟩
      · revert hm
        simp only [Function.update_apply]
        by_cases hu : u = s.clients.getD i 0
        · rw [if_pos hu]
          intro hm
          exact g1 u m (by rw [hu]; exact hm)
        · rw [if_neg hu]
          exact g1 u m
      · revert h
        simp only [Function.update_apply]
        by_cases hu : u = s.clients.getD i 0
        · rw [if_pos hu]
          exact fun _ => rfl
        · rw [if_neg hu]
          exact g2 u
      · simp only [Function.update_apply]
        by_cases hu : u = s.clients.getD i 0
        · rw [if_pos hu]
        · rw [if_neg hu]
          exact g3 u hadd hnc
    | sessionClosed i =>
      simp only [step] at hst
      have hcl : (s.cs (s.clients.getD i 0)).closed = true := by
        have h2 := hen
        simp only [enabledB, Bool.and_eq_true] at h2
        exact h2.2
      have hfn : (s.cs (s.clients.getD i 0)).writeFieldNil = true := by
        have hwl := ((hcs (s.clients.getD i 0)).2.1 hcl).1
        have hqc := g2 _ hwl
        exact ((hcs (s.clients.getD i 0)).2.2 hqc).1
      split at hst <;>
      · injection hst with hst
        injection hst with hst hout
        subst hst
        refine ⟨g1, g2, fun u hadd hnc => ?_⟩
        by_cases huc : u ∈ s.clients
        · obtain ⟨hi, heq⟩ := eq_getD_of_not_mem_eraseIdx huc hnc
          rw [heq]
          exact hfn
        · exact g3 u hadd huc
    | addClient id =>
      simp only [step] at hst
      injection hst with hst
      injection hst with hst hout
      subst hst
      refine ⟨fun u m hm => ?_, fun u h => ?_, fun u hadd hnc => ?_⟩
      · revert hm
        simp only [Function.update_apply]
        by_cases hu : u = id
        · rw [if_pos hu]
          intro hm
          simp [initCState] at hm
        · rw [if_neg hu]
          exact g1 u m
      · revert h
        simp only [Function.update_apply]
        by_cases hu : u = id
        · rw [if_pos hu]
          intro h
          simp [initCState] at h
        · rw [if_neg hu]
          exact g2 u
      · simp only [Function.update_apply]
        by_cases hu : u = id
        · exact absurd (List.mem_append.mpr (Or.inr (by simp [hu]))) hnc
        · rw [if_neg hu]
          have hadd2 : u ∈ s.added := by
            rcases List.mem_append.mp hadd with h1 | h1
            · exact h1
            · simp at h1
              exact absurd h1 hu
          have hnc2 : u ∉ s.clients :=
            fun hc => hnc (List.mem_append.mpr (Or.inl hc))
          exact g3 u hadd2 hnc2
    | send p =>
      simp only [step] at hst
      cases hd : dispatchList s.cs p.message
          (match p.clients with | none => s.clients | some ts => ts) with
      | none => rw [hd] at hst; exact absurd hst (by simp)
      | some cs2 =>
        rw [hd] at hst
        injection hst with hst
        injection hst with hst hout
        subst hst
        have hmok : marshalOk p.message = true := by
          simp only [goodSends] at hok
          exact hok
        refine ⟨fun u m hm => ?_, fun u h => ?_, fun u hadd hnc => ?_⟩
        · rcases dispatchList_mem p.message _ _ _ hd u m hm with h1 | h1
          · exact g1 u m h1
          · rw [h1]
            exact hmok
        · obtain ⟨f1, f2, f3, f4, f5, f6, f7⟩ := dispatchList_fields p.message _ _ _ hd u
          have h2 : (cs2 u).wlDone = true := h
          rw [f5] at h2
          show (cs2 u).qClosed = true
          rw [f3]
          exact g2 u h2
        · obtain ⟨f1, f2, f3, f4, f5, f6, f7⟩ := dispatchList_fields p.message _ _ _ hd u
          show (cs2 u).writeFieldNil = true
          rw [f4]
          exact g3 u hadd hnc
    | closeReq =>
      simp only [step] at hst
      split at hst
      · injection hst with hst
        injection hst with hst hout
        subst hst
        exact ⟨g1, g2, g3⟩
      · injection hst with hst
        injection hst with hst hout
        subst hst
        refine ⟨fun u m hm => ?_, fun u h => ?_, fun u hadd hnc => ?_⟩
        · revert hm
          by_cases hu : u ∈ s.clients
          · simp only [if_pos hu]
            exact g1 u m
          · simp only [if_neg hu]
            exact g1 u m
        · revert h
          by_cases hu : u ∈ s.clients
          · simp only [if_pos hu]
            exact g2 u
          · simp only [if_neg hu]
            exact g2 u
        · by_cases hu : u ∈ s.clients
          · simp only [if_pos hu]
            exact g3 u hadd hnc
          · simp only [if_neg hu]
            exact g3 u hadd hnc
    | wlConsume id =>
      simp only [step] at hst
      cases hq : (s.cs id).q with
      | nil =>
        rw [hq] at hst
        injection hst with hst
        injection hst with hst hout
        exact hst ▸ ⟨g1, g2, g3⟩
      | cons m rest =>
        rw [hq] at hst
        injection hst with hst
        injection hst with hst hout
        subst hst
        have hmok : marshalOk m = true := g1 id m (by rw [hq]; exact List.mem_cons_self m rest)
        refine ⟨fun u x hm => ?_, fun u h => ?_, fun u hadd hnc => ?_⟩
        · revert hm
          simp only [Function.update_apply]
          by_cases hu : u = id
          · rw [if_pos hu]
            intro hm
            refine g1 id x ?_
            rw [hq]
            exact List.mem_cons_of_mem m hm
          · rw [if_neg hu]
            exact g1 u x
        · revert h
          simp only [Function.update_apply]
          by_cases hu : u = id
          · rw [if_pos hu]
            intro h
            simp only [hmok] at h
            simp at h
          · rw [if_neg hu]
            exact g2 u
        · simp only [Function.update_apply]
          by_cases hu : u = id
          · rw [if_pos hu]
            rw [hu] at hadd hnc
            exact g3 id hadd hnc
          · rw [if_neg hu]
            exact g3 u hadd hnc
    | wlExit id =>
      simp only [step] at hst
      injection hst with hst
      injection hst with hst hout
      subst hst
      have hqc : (s.cs id).qClosed = true := by
        have h2 := hen
        simp only [enabledB, Bool.and_eq_true] at h2
        exact h2.1.1.2
      refine ⟨fun u x hm => ?_, fun u h => ?_, fun u hadd hnc => ?_⟩
      · revert hm
        simp only [Function.update_apply]
        by_cases hu : u = id
        · rw [if_pos hu]
          intro hm
          exact g1 id x hm
        · rw [if_neg hu]
          exact g1 u x
      · revert h
        simp only [Function.update_apply]
        by_cases hu : u = id
        · rw [if_pos hu]
          intro _
          exact hqc
        · rw [if_neg hu]
          exact g2 u
      · simp only [Function.update_apply]
        by_cases hu : u = id
        · rw [if_pos hu]
          rw [hu] at hadd hnc
          exact g3 id hadd hnc
        · rw [if_neg hu]
          exact g3 u hadd hnc
    | rlFail id =>
      simp only [step] at hst
      injection hst with hst
      injection hst with hst hout
      subst hst
      refine ⟨fun u x hm => ?_, fun u h => ?_, fun u hadd hnc => ?_⟩
      · revert hm
        simp only [Function.update_apply]
        by_cases hu : u = id
        · rw [if_pos hu]
          intro hm
          exact g1 id x hm
        · rw [if_neg hu]
          exact g1 u x
      · revert h
        simp only [Function.update_apply]
        by_cases hu : u = id
        · rw [if_pos hu]
          intro h
          exact g2 id h
        · rw [if_neg hu]
          exact g2 u
      · simp only [Function.update_apply]
        by_cases hu : u = id
        · rw [if_pos hu]
          rw [hu] at hadd hnc
          exact g3 id hadd hnc
        · rw [if_neg hu]
          exact g3 u hadd hnc
    | rlFinish id =>
      simp only [step] at hst
      injection hst with hst
      injection hst with hst hout
      subst hst
      refine ⟨fun u x hm => ?_, fun u h => ?_, fun u hadd hnc => ?_⟩
      · revert hm
        simp only [Function.update_apply]
        by_cases hu : u = id
        · rw [if_pos hu]
          intro hm
          exact g1 id x hm
        · rw [if_neg hu]
          exact g1 u x
      · revert h
        simp only [Function.update_apply]
        by_cases hu : u = id
        · rw [if_pos hu]
          intro h
          exact g2 id h
        · rw [if_neg hu]
          exact g2 u
      · simp only [Function.update_apply]
        by_cases hu : u = id
        · rw [if_pos hu]
          rw [hu] at hadd hnc
          exact g3 id hadd hnc
        · rw [if_neg hu]
          exact g3 u hadd hnc

/-- A sweep cannot panic as long as closed channels have nil fields. -/
theorem dispatchList_isSome (m : Msg) :
    ∀ (ts : List Nat) (cs : Nat → CState),
    (∀ t, (cs t).qClosed = true → (cs t).writeFieldNil = true) →
    ∃ cs2, dispatchList cs m ts = some cs2 := by
  intro ts
  induction ts with
  | nil => exact fun cs _ => ⟨cs, rfl⟩
  | cons t ts ih =>
    intro cs hB
    have hone := dispatchOne_eq_pure (m := m) (hB t)
    have hB2 : ∀ u, ((Function.update cs t (dispatchPure (cs t) m)) u).qClosed = true →
        ((Function.update cs t (dispatchPure (cs t) m)) u).writeFieldNil = true := by
      intro u
      by_cases hu : u = t
      · subst hu
        simp only [Function.update_same]
        rw [(dispatchPure_fields (cs u) m).2.2.1, (dispatchPure_fields (cs u) m).2.2.2.1]
        exact hB u
      · simp only [Function.update_noteq hu]
        exact hB u
    obtain ⟨cs2, h2⟩ := ih _ hB2
    refine ⟨cs2, ?_⟩
    unfold dispatchList
    rw [hone]
    exact h2

/-- The `qClosed → writeFieldNil` component of `InvCore`, in the form
the dispatch lemmas consume. -/
theorem invCore_qClosed_nil {ok : Event → Bool} {s : HubState}
    (hs : Reach ok s) :
    ∀ t, (s.cs t).qClosed = true → (s.cs t).writeFieldNil = true :=
  fun t h => (((reach_invCore hs).2.2 t).2.2 h).1

/-! ## 7. Concrete reachable states for witnesses and counterexamples -/

/-- A marshallable test message (`NewMessage("test", nil)` produces
`Type = "test"`, `Data = "null"`). -/
def mA : Msg := { type := "test", data := ['n', 'u', 'l', 'l'] }

def s1w : HubState :=
  { clients := [0], cs := Function.update (fun _ => initCState) 0 initCState,
    added := [0], shuttingDown := false, stopped := false }

def s2w : HubState :=
  { clients := [0, 1], cs := Function.update s1w.cs 1 initCState,
    added := [0, 1], shuttingDown := false, stopped := false }

theorem reach_s1w : Reach goodSends s1w :=
  Reach.next _ (.addClient 0) _ _ Reach.init rfl rfl rfl

theorem reach_s2w : Reach goodSends s2w :=
  Reach.next _ (.addClient 1) _ _ reach_s1w rfl rfl rfl

/-- Client 0's state after its transport read failed. -/
def cFailw : CState :=
  { initCState with readOpen := false, rlWaiting := true }

/-- ... after the hub processed the closed read channel (closing and
nil'ing the write channel). -/
def cNilw : CState :=
  { cFailw with qClosed := true, readFieldNil := true, writeFieldNil := true }

/-- ... after `writeLoop` drained the closed channel and returned. -/
def cWldw : CState := { cNilw with wlDone := true }

/-- ... after `readLoop` observed `writeClosedChan` and closed
`closedChan`: both pumps terminated. -/
def cDonew : CState := { cWldw with closed := true }

def s3w : HubState := { s2w with cs := Function.update s2w.cs 0 cFailw }

theorem reach_s3w : Reach goodSends s3w :=
  Reach.next _ (.rlFail 0) _ _ reach_s2w rfl rfl rfl

def s4w : HubState := { s2w with cs := Function.update s3w.cs 0 cNilw }

theorem reach_s4w : Reach goodSends s4w :=
  Reach.next _ (.readChanClosed 0) _ _ reach_s3w rfl rfl rfl

def s5w : HubState := { s2w with cs := Function.update s4w.cs 0 cWldw }

theorem reach_s5w : Reach goodSends s5w :=
  Reach.next _ (.wlExit 0) _ _ reach_s4w rfl rfl rfl

def s6w : HubState := { s2w with cs := Function.update s5w.cs 0 cDonew }

theorem reach_s6w : Reach goodSends s6w :=
  Reach.next _ (.rlFinish 0) _ _ reach_s5w rfl rfl rfl

/-- ... after the hub processed `closedChan` and removed client 0. -/
def s7w : HubState := { s2w with clients := [1], cs := s6w.cs }

theorem reach_s7w : Reach goodSends s7w :=
  Reach.next _ (.sessionClosed 0) _ _ reach_s6w rfl rfl rfl

/-- States used for the slow-consumer witness: client 1's queue filled
by ten processed sends. -/
def cQ1w : CState := { initCState with q := [mA] }

def cQ2w : CState := { initCState with q := [mA, mA] }

def cQ3w : CState := { initCState with q := [mA, mA, mA] }

def cQ4w : CState := { initCState with q := [mA, mA, mA, mA] }

def cQ5w : CState := { initCState with q := [mA, mA, mA, mA, mA] }

def cQ6w : CState := { initCState with q := [mA, mA, mA, mA, mA, mA] }

def cQ7w : CState := { initCState with q := [mA, mA, mA, mA, mA, mA, mA] }

def cQ8w : CState := { initCState with q := [mA, mA, mA, mA, mA, mA, mA, mA] }

def cQ9w : CState := { initCState with q := [mA, mA, mA, mA, mA, mA, mA, mA, mA] }

def cQ10w : CState :=
  { initCState with q := [mA, mA, mA, mA, mA, mA, mA, mA, mA, mA] }

/-- The send request used to fill client 1's queue. -/
def sendTo1 : Event := .send { message := mA, clients := some [1] }

def sQ1w : HubState := { s2w with cs := Function.update s2w.cs 1 cQ1w }

def sQ2w : HubState := { s2w with cs := Function.update sQ1w.cs 1 cQ2w }

def sQ3w : HubState := { s2w with cs := Function.update sQ2w.cs 1 cQ3w }

def sQ4w : HubState := { s2w with cs := Function.update sQ3w.cs 1 cQ4w }

def sQ5w : HubState := { s2w with cs := Function.update sQ4w.cs 1 cQ5w }

def sQ6w : HubState := { s2w with cs := Function.update sQ5w.cs 1 cQ6w }

def sQ7w : HubState := { s2w with cs := Function.update sQ6w.cs 1 cQ7w }

def sQ8w : HubState := { s2w with cs := Function.update sQ7w.cs 1 cQ8w }

def sQ9w : HubState := { s2w with cs := Function.update sQ8w.cs 1 cQ9w }

def sQ10w : HubState := { s2w with cs := Function.update sQ9w.cs 1 cQ10w }

theorem reach_sQ10w : Reach goodSends sQ10w :=
  Reach.next _ sendTo1 _ _
    (Reach.next _ sendTo1 _ _
      (Reach.next _ sendTo1 _ _
        (Reach.next _ sendTo1 _ _
          (Reach.next _ sendTo1 _ _
            (Reach.next _ sendTo1 _ _
              (Reach.next _ sendTo1 _ _
                (Reach.next _ sendTo1 _ _
                  (Reach.next _ sendTo1 _ _
                    (Reach.next _ sendTo1 _ _ reach_s2w rfl rfl rfl)
                    rfl rfl rfl)
                  rfl rfl rfl)
                rfl rfl rfl)
              rfl rfl rfl)
            rfl rfl rfl)
          rfl rfl rfl)
        rfl rfl rfl)
      rfl rfl rfl)
    rfl rfl rfl

/-- `s2w` after the hub processed a shutdown request: draining. -/
def sDw : HubState :=
  { s2w with
      shuttingDown := true,
      cs := fun id =>
        if id ∈ s2w.clients then { s2w.cs id with connOpen := false }
        else s2w.cs id }

theorem reach_sDw : Reach goodSends sDw :=
  Reach.next _ .closeReq _ _ reach_s2w rfl rfl rfl

/-! ## 8. Claim theorems for the hub model -/

/-- C1 (counterexample).  The claim says the default handler broadcasts
an inbound message to every active session *other than* the originating
one, the originator not receiving its own message back.  In the code the
default handler is `h.Send(m, nil)` and a nil target list resolves to
the whole active list, originator included.  Concretely: with clients 0
and 1 active, a message received from client 0 is dispatched to the
handler for client 0, the default handler forwards `(m, nil)`, and
processing that request enqueues the message onto *both* queues — in
particular onto the originator's, which therefore receives its own
message back. -/
theorem c1_counterexample :
    step s2w (.recvMsg 0 mA) = some (s2w, [.handleMessage mA 0]) ∧
    defaultHandlerParams mA = { message := mA, clients := none } ∧
    (step s2w (.send (defaultHandlerParams mA))).map
      (fun x => ((x.1.cs 0).q, (x.1.cs 1).q)) = some ([mA], [mA]) ∧
    ¬ (step s2w (.send (defaultHandlerParams mA))).map
      (fun x => (x.1.cs 0).q) = some [] := by
  refine ⟨rfl, rfl, rfl, ?_⟩
  intro h
  have heq : (step s2w (.send (defaultHandlerParams mA))).map
      (fun x => (x.1.cs 0).q) = some [mA] := rfl
  rw [heq] at h
  exact List.cons_ne_nil mA [] (Option.some.inj h)

/-- C1 (amended).  When no message handler is installed, the default
handler forwards the inbound message with a nil target list; processing
that send delivers the message unchanged to every active session *with
room in its queue*, including the originating session itself. -/
theorem c1_theorem {s : HubState} (hs : Reach goodSends s) (m : Msg) :
    ∃ cs2, step s (.send (defaultHandlerParams m)) =
        some ({ s with cs := cs2 }, []) ∧
      ∀ u, u ∈ s.clients → (s.cs u).writeFieldNil = false →
        (s.cs u).q.length < 10 → (cs2 u).q = (s.cs u).q ++ [m] := by
  obtain ⟨cs2, hd, hpt⟩ :=
    dispatchList_char m s.clients (reach_invCore hs).1 s.cs (invCore_qClosed_nil hs)
  refine ⟨cs2, ?_, ?_⟩
  · simp only [step, defaultHandlerParams]
    rw [hd]
  · intro u hu hfn hlen
    rw [hpt u, if_pos hu]
    simp [dispatchPure, hfn, hlen]

theorem c1_theorem_witness :
    ∃ cs2, step s2w (.send (defaultHandlerParams mA)) =
        some ({ s2w with cs := cs2 }, []) ∧ (cs2 0).q = [mA] := by
  obtain ⟨cs2, h1, h2⟩ := c1_theorem reach_s2w mA
  refine ⟨cs2, h1, ?_⟩
  rw [h2 0 (by decide) (by decide) (by decide)]
  rfl

/-- C2 (confirmed).  Processing a send request whose resolved target `t`
has a live (non-nil) write channel with a full buffer (length ≥ 10) does
not block and does not panic: the step completes, `t`'s connection is
force-closed while its queue is left as it was, the membership list is
untouched (visible in the resulting state, which differs only in `cs`),
untargeted sessions are completely unchanged, and every *other* target
with room receives the message normally. -/
theorem c2_theorem {s : HubState} (hs : Reach goodSends s) (m : Msg)
    (ts : List Nat) (t : Nat) (hnd : ts.Nodup) (ht : t ∈ ts)
    (hfn : (s.cs t).writeFieldNil = false)
    (hfull : ¬ (s.cs t).q.length < 10) :
    ∃ cs2, step s (.send { message := m, clients := some ts }) =
        some ({ s with cs := cs2 }, []) ∧
      (cs2 t).connOpen = false ∧ (cs2 t).q = (s.cs t).q ∧
      (∀ u, u ∉ ts → cs2 u = s.cs u) ∧
      (∀ u, u ∈ ts → (s.cs u).writeFieldNil = false →
        (s.cs u).q.length < 10 →
        (cs2 u).q = (s.cs u).q ++ [m] ∧ (cs2 u).connOpen = (s.cs u).connOpen) := by
  obtain ⟨cs2, hd, hpt⟩ :=
    dispatchList_char m ts hnd s.cs (invCore_qClosed_nil hs)
  refine ⟨cs2, ?_, ?_, ?_, ?_, ?_⟩
  · simp only [step]
    rw [hd]
  · rw [hpt t, if_pos ht]
    simp [dispatchPure, hfn, hfull]
  · rw [hpt t, if_pos ht]
    simp [dispatchPure, hfn, hfull]
  · intro u hu
    rw [hpt u, if_neg hu]
  · intro u hu hufn hulen
    rw [hpt u, if_pos hu]
    simp [dispatchPure, hufn, hulen]

theorem c2_theorem_witness :
    ∃ cs2, step sQ10w (.send { message := mA, clients := some [0, 1] }) =
        some ({ sQ10w with cs := cs2 }, []) ∧
      (cs2 1).connOpen = false ∧ (cs2 1).q = (sQ10w.cs 1).q ∧
      (cs2 0).q = (sQ10w.cs 0).q ++ [mA] := by
  obtain ⟨cs2, h1, h2, h3, h4, h5⟩ :=
    c2_theorem reach_sQ10w mA [0, 1] 1 (by decide) (by decide)
      (by decide) (by decide)
  exact ⟨cs2, h1, h2, h3, (h5 0 (by decide) (by decide) (by decide)).1⟩

/-- C3 (confirmed).  In any reachable state, a removal notification is
emitted only while handling a `closedChan` signal, whose enabling
requires the session's `closedChan` to be closed — which in turn (by the
reachability invariant on the pumps' defers) implies the outbound pump
has returned (`writeClosedChan` closed) and the inbound pump has left
its read loop; handling the read channel's closure alone emits nothing
and leaves the membership untouched. -/
theorem c3_theorem {ok : Event → Bool} {s : HubState} (hs : Reach ok s)
    {e : Event} {s' : HubState} {out : List Output}
    (hen : enabledB s e = true) (hst : step s e = some (s', out)) :
    ((∃ cid seen, Output.clientRemoved cid seen ∈ out) →
      ∃ i, e = .sessionClosed i ∧
        (s.cs (s.clients.getD i 0)).closed = true ∧
        (s.cs (s.clients.getD i 0)).wlDone = true ∧
        (s.cs (s.clients.getD i 0)).readOpen = false) ∧
    (∀ i, e = .readChanClosed i → out = [] ∧ s'.clients = s.clients) := by
  obtain ⟨hnd, hsub, hcs⟩ := reach_invCore hs
  cases e with
  | recvMsg i m =>
    simp only [step] at hst
    injection hst with hst
    injection hst with hst hout
    subst hout
    exact ⟨fun ⟨cid, seen, hm⟩ => by simp at hm,
      fun i heq => Event.noConfusion heq⟩
  | readChanClosed i =>
    simp only [step] at hst
    injection hst with hst
    injection hst with hst hout
    subst hout
    subst hst
    refine ⟨fun ⟨cid, seen, hm⟩ => by simp at hm, fun j heq => ⟨rfl, rfl⟩⟩
  | sessionClosed i =>
    have hcl : (s.cs (s.clients.getD i 0)).closed = true := by
      have h2 := hen
      simp only [enabledB, Bool.and_eq_true] at h2
      exact h2.2
    have hwl := ((hcs (s.clients.getD i 0)).2.1 hcl).1
    have hro := (hcs (s.clients.getD i 0)).1 ((hcs (s.clients.getD i 0)).2.1 hcl).2
    exact ⟨fun _ => ⟨i, rfl, hcl, hwl, hro⟩,
      fun j heq => Event.noConfusion heq⟩
  | addClient id =>
    simp only [step] at hst
    injection hst with hst
    injection hst with hst hout
    subst hout
    exact ⟨fun ⟨cid, seen, hm⟩ => by simp at hm,
      fun i heq => Event.noConfusion heq⟩
  | send p =>
    simp only [step] at hst
    cases hd : dispatchList s.cs p.message
        (match p.clients with | none => s.clients | some ts => ts) with
    | none => rw [hd] at hst; exact absurd hst (by simp)
    | some cs2 =>
      rw [hd] at hst
      injection hst with hst
      injection hst with hst hout
      subst hout
      exact ⟨fun ⟨cid, seen, hm⟩ => by simp at hm,
        fun i heq => Event.noConfusion heq⟩
  | closeReq =>
    simp only [step] at hst
    split at hst <;>
    · injection hst with hst
      injection hst with hst hout
      subst hout
      exact ⟨fun ⟨cid, seen, hm⟩ => by simp at hm,
        fun i heq => Event.noConfusion heq⟩
  | wlConsume id =>
    simp only [step] at hst
    cases hq : (s.cs id).q with
    | nil =>
      rw [hq] at hst
      injection hst with hst
      injection hst with hst hout
      subst hout
      exact ⟨fun ⟨cid, seen, hm⟩ => by simp at hm,
        fun i heq => Event.noConfusion heq⟩
    | cons m rest =>
      rw [hq] at hst
      injection hst with hst
      injection hst with hst hout
      subst hout
      exact ⟨fun ⟨cid, seen, hm⟩ => by simp at hm,
        fun i heq => Event.noConfusion heq⟩
  | wlExit id =>
    simp only [step] at hst
    injection hst with hst
    injection hst with hst hout
    subst hout
    exact ⟨fun ⟨cid, seen, hm⟩ => by simp at hm,
      fun i heq => Event.noConfusion heq⟩
  | rlFail id =>
    simp only [step] at hst
    injection hst with hst
    injection hst with hst hout
    subst hout
    exact ⟨fun ⟨cid, seen, hm⟩ => by simp at hm,
      fun i heq => Event.noConfusion heq⟩
  | rlFinish id =>
    simp only [step] at hst
    injection hst with hst
    injection hst with hst hout
    subst hout
    exact ⟨fun ⟨cid, seen, hm⟩ => by simp at hm,
      fun i heq => Event.noConfusion heq⟩

theorem c3_theorem_witness :
    ∃ i, Event.sessionClosed 0 = Event.sessionClosed i ∧
      (s6w.cs (s6w.clients.getD i 0)).closed = true ∧
      (s6w.cs (s6w.clients.getD i 0)).wlDone = true ∧
      (s6w.cs (s6w.clients.getD i 0)).readOpen = false :=
  (c3_theorem reach_s6w (e := .sessionClosed 0) (by decide) rfl).1
    ⟨0, [1], by decide⟩

/-- C4 (counterexample).  The claim treats an explicitly empty target
list like an absent one (full broadcast).  In the code only a nil slice
is replaced by the active list (`if p.clients == nil`); an empty but
non-nil slice makes the delivery loop iterate zero times.  Concretely,
with clients 0 and 1 active, a send with an empty target list delivers
to nobody, while the same send with a nil target list delivers to
both. -/
theorem c4_counterexample :
    (step s2w (.send { message := mA, clients := some [] })).map
      (fun x => ((x.1.cs 0).q, (x.1.cs 1).q)) = some ([], []) ∧
    (step s2w (.send { message := mA, clients := none })).map
      (fun x => ((x.1.cs 0).q, (x.1.cs 1).q)) = some ([mA], [mA]) ∧
    ¬ (step s2w (.send { message := mA, clients := some [] })).map
      (fun x => (x.1.cs 0).q) = some [mA] := by
  refine ⟨rfl, rfl, ?_⟩
  intro h
  have heq : (step s2w (.send { message := mA, clients := some [] })).map
      (fun x => (x.1.cs 0).q) = some [] := rfl
  rw [heq] at h
  exact List.cons_ne_nil mA [] (Option.some.inj h).symm

/-- C4 (amended).  A send with an *absent* (nil) target list is
dispatched to the active set exactly as it stands when the request is
processed: the request is handled identically to one explicitly
targeting the current list, every active session with a live channel
and room receives the message, and any session outside the current
active set is untouched.  A send with an explicitly *empty* target
list, by contrast, changes nothing at all. -/
theorem c4_theorem {s : HubState} (hs : Reach goodSends s) (m : Msg) :
    step s (.send { message := m, clients := none }) =
      step s (.send { message := m, clients := some s.clients }) ∧
    step s (.send { message := m, clients := some [] }) = some (s, []) ∧
    ∃ cs2, step s (.send { message := m, clients := none }) =
        some ({ s with cs := cs2 }, []) ∧
      (∀ u, u ∈ s.clients → (s.cs u).writeFieldNil = false →
        (s.cs u).q.length < 10 → (cs2 u).q = (s.cs u).q ++ [m]) ∧
      (∀ u, u ∉ s.clients → cs2 u = s.cs u) := by
  obtain ⟨cs2, hd, hpt⟩ :=
    dispatchList_char m s.clients (reach_invCore hs).1 s.cs (invCore_qClosed_nil hs)
  refine ⟨rfl, rfl, cs2, ?_, ?_, ?_⟩
  · simp only [step]
    rw [hd]
  · intro u hu hfn hlen
    rw [hpt u, if_pos hu]
    simp [dispatchPure, hfn, hlen]
  · intro u hu
    rw [hpt u, if_neg hu]

theorem c4_theorem_witness :
    step s2w (.send { message := mA, clients := some [] }) = some (s2w, []) :=
  (c4_theorem reach_s2w mA).2.1

/-- C5 (confirmed, under the spec's own assumption that payloads
marshal).  A send request explicitly targeting a session that has been
removed from the active set is processed without panic and without any
effect on that target: by the reachability invariants a removed
session's write-channel field has been nil'd, so the dispatch loop's
`c.writeChan != nil` guard skips it — no enqueue, no `conn.Close`, no
error output. -/
theorem c5_theorem {s : HubState} (hs : Reach goodSends s) (m : Msg)
    (ts : List Nat) (t : Nat) (ht : t ∈ ts) (hadd : t ∈ s.added)
    (hgone : t ∉ s.clients) :
    ∃ cs2, step s (.send { message := m, clients := some ts }) =
        some ({ s with cs := cs2 }, []) ∧ cs2 t = s.cs t := by
  have hfn := (reach_invGood hs).2.2 t hadd hgone
  obtain ⟨cs2, hd⟩ := dispatchList_isSome m ts s.cs (invCore_qClosed_nil hs)
  refine ⟨cs2, ?_, dispatchList_skip m ts s.cs t hfn cs2 hd⟩
  simp only [step]
  rw [hd]

theorem c5_theorem_witness :
    ∃ cs2, step s7w (.send { message := mA, clients := some [0] }) =
        some ({ s7w with cs := cs2 }, []) ∧ cs2 0 = s7w.cs 0 :=
  c5_theorem reach_s7w mA [0] 0 (by decide) (by decide) (by decide)

/-- C8 (confirmed at the loop level).  While draining, the close channel
is left out of the assembled select cases, so a further shutdown signal
cannot be handled at all — the drain in progress is neither restarted
nor disturbed; a shutdown request handled with an empty active set makes
the loop return at once (hub stopped), and one handled with a non-empty
set force-closes every active connection, sets the draining flag and
leaves membership and queues alone. -/
theorem c8_theorem (s : HubState) :
    (s.shuttingDown = true → enabledB s .closeReq = false) ∧
    (s.clients = [] →
      step s .closeReq = some ({ s with stopped := true }, [.terminated])) ∧
    (s.clients ≠ [] →
      ∃ cs2, step s .closeReq =
          some ({ s with shuttingDown := true, cs := cs2 }, []) ∧
        ∀ id, id ∈ s.clients →
          (cs2 id).connOpen = false ∧ (cs2 id).q = (s.cs id).q) := by
  refine ⟨?_, ?_, ?_⟩
  · intro h
    simp [enabledB, h]
  · intro h
    simp only [step]
    rw [if_pos h]
  · intro h
    refine ⟨fun id =>
      if id ∈ s.clients then { s.cs id with connOpen := false } else s.cs id,
      ?_, ?_⟩
    · simp only [step]
      rw [if_neg h]
    · intro id hid
      simp [if_pos hid]

theorem c8_theorem_witness :
    enabledB sDw .closeReq = false ∧
    step initState .closeReq =
      some ({ initState with stopped := true }, [.terminated]) :=
  ⟨(c8_theorem sDw).1 rfl, (c8_theorem initState).2.1 rfl⟩

/-- C10 (confirmed).  Handling a registration invokes the added-client
hook *before* appending the session: the emitted notification carries
the pre-append membership (which is what `Clients()` returns while the
hook runs, the hub's list still being the old one), the new session is
not in it, and only the resulting state has the session appended. -/
theorem c10_theorem {ok : Event → Bool} {s : HubState} (hs : Reach ok s)
    (id : Nat) (hen : enabledB s (.addClient id) = true) :
    step s (.addClient id) =
      some ({ s with
          clients := s.clients ++ [id],
          added := s.added ++ [id],
          cs := Function.update s.cs id initCState },
        [.clientAdded id s.clients]) ∧
    id ∉ s.clients := by
  refine ⟨rfl, ?_⟩
  intro hc
  have hadd := (reach_invCore hs).2.1 id hc
  simp only [enabledB, Bool.and_eq_true] at hen
  have h2 := hen.2
  simp at h2
  exact h2 hadd

theorem c10_theorem_witness :
    step s2w (.addClient 5) =
      some ({ s2w with
          clients := s2w.clients ++ [5],
          added := s2w.added ++ [5],
          cs := Function.update s2w.cs 5 initCState },
        [.clientAdded 5 s2w.clients]) ∧
    5 ∉ s2w.clients :=
  c10_theorem reach_s2w 5 (by decide)

/-! ## 9. Claim theorems for `Clients()` slice aliasing -/

/-- A hub memory with two registered clients, identities 1 and 2, stored
in backing array 0 with no spare capacity. -/
def sC0 : SliceState :=
  { heap := fun a => if a = 0 then [1, 2] else [],
    clientsSlice := { arrId := 0, len := 2 }, nextArr := 1 }

/-- C6 (counterexample).  The claim says a previously returned client
list is immutable under later control-loop removals.  `Clients()`
returns the live slice header, and the loop's removal shifts the shared
backing array in place: a snapshot taken with clients `[1, 2]` reads
`[1, 2]` at call time, but after the loop removes index 0 the same
snapshot reads `[2, 2]`. -/
theorem c6_counterexample :
    readSlice sC0.heap (clientsFn sC0) = [1, 2] ∧
    readSlice (removeAt sC0 0).heap (clientsFn sC0) = [2, 2] ∧
    ¬ readSlice (removeAt sC0 0).heap (clientsFn sC0) = [1, 2] := by
  decide

/-- C6 (amended).  `Clients()` does return the membership as of the
call (the returned header dereferences to the live list), but it aliases
the live backing array rather than copying: after the control loop
removes index `i`, the post-removal live list is the old list with index
`i` erased, while a header returned *before* the removal now reads that
same erased list followed by a stale duplicate of the old last element —
its contents have changed in place. -/
theorem c6_theorem (s : SliceState) (i : Nat)
    (hlen : s.clientsSlice.len ≤ (s.heap s.clientsSlice.arrId).length)
    (hi : i < s.clientsSlice.len) :
    readSlice s.heap (clientsFn s) = readSlice s.heap s.clientsSlice ∧
    readSlice (removeAt s i).heap (removeAt s i).clientsSlice =
      (readSlice s.heap s.clientsSlice).eraseIdx i ∧
    readSlice (removeAt s i).heap (clientsFn s) =
      (readSlice s.heap s.clientsSlice).eraseIdx i ++
        (readSlice s.heap s.clientsSlice).drop (s.clientsSlice.len - 1) := by
  simp only [removeAt, readSlice, clientsFn, Function.update_same]
  set a := s.heap s.clientsSlice.arrId with ha
  set n := s.clientsSlice.len with hn
  have hXlen : (a.take i).length = i :=
    List.length_take_of_le (Nat.le_trans (Nat.le_of_lt hi) hlen)
  have htn : (a.take n).length = n := List.length_take_of_le hlen
  have hYlen : ((a.take n).drop (i + 1)).length = n - (i + 1) := by
    rw [List.length_drop, htn]
  have hXYlen : (a.take i ++ (a.take n).drop (i + 1)).length = n - 1 := by
    rw [List.length_append, hXlen, hYlen]
    omega
  have herase : (a.take n).eraseIdx i = a.take i ++ (a.take n).drop (i + 1) := by
    rw [List.eraseIdx_eq_take_drop_succ, List.take_take]
    congr 1
    rw [Nat.min_eq_left (Nat.le_of_lt hi)]
  refine ⟨trivial, ?_, ?_⟩
  · rw [herase, List.take_append_eq_append_take, hXYlen,
      Nat.sub_self, List.take_zero, List.append_nil,
      List.take_of_length_le (Nat.le_of_eq hXYlen)]
  · rw [herase, List.take_append_eq_append_take, hXYlen,
      List.take_of_length_le (by rw [hXYlen]; omega), List.drop_take,
      List.drop_take]

theorem c6_theorem_witness :
    readSlice (removeAt sC0 0).heap (clientsFn sC0) =
      ([1, 2].eraseIdx 0) ++ ([1, 2].drop 1) :=
  (c6_theorem sC0 0 (by decide) (by decide)).2.2

/-! ## 10. Claim theorems for `writeLoop` -/

/-- C7 (counterexample).  The claim says the outbound pump stops on a
failed transport write and forces the transport closed.  The code
discards `WriteMessage`'s result: with two marshallable messages queued
and a transport all of whose writes fail, the pump still attempts both
writes and never closes the connection. -/
theorem c7_counterexample :
    (writeLoopRun [mA, mA] (fun _ => false)).attempts = [mA, mA] ∧
    (writeLoopRun [mA, mA] (fun _ => false)).connClosed = false ∧
    ¬ (writeLoopRun [mA, mA] (fun _ => false)).attempts.length ≤ 1 := by
  decide

theorem writeLoopGo_oracle_free (w1 w2 : Nat → Bool) :
    ∀ (q : List Msg) (k1 k2 : Nat) (acc : List Msg),
    writeLoopGo w1 q k1 acc = writeLoopGo w2 q k2 acc := by
  intro q
  induction q with
  | nil => intro k1 k2 acc; rfl
  | cons m rest ih =>
    intro k1 k2 acc
    simp only [writeLoopGo]
    split
    · exact ih (k1 + 1) (k2 + 1) (acc ++ [m])
    · rfl

theorem writeLoopGo_flags (w : Nat → Bool) :
    ∀ (q : List Msg) (k : Nat) (acc : List Msg),
    (writeLoopGo w q k acc).connClosed = false ∧
    (writeLoopGo w q k acc).signaled = true := by
  intro q
  induction q with
  | nil => intro k acc; exact ⟨rfl, rfl⟩
  | cons m rest ih =>
    intro k acc
    simp only [writeLoopGo]
    split
    · exact ih (k + 1) (acc ++ [m])
    · exact ⟨rfl, rfl⟩

theorem writeLoopGo_attempts (w : Nat → Bool) :
    ∀ (q : List Msg), (∀ m, m ∈ q → marshalOk m = true) →
    ∀ (k : Nat) (acc : List Msg),
    (writeLoopGo w q k acc).attempts = acc ++ q := by
  intro q
  induction q with
  | nil =>
    intro _ k acc
    simp [writeLoopGo]
  | cons m rest ih =>
    intro hok k acc
    simp only [writeLoopGo]
    rw [if_pos (hok m (List.mem_cons_self m rest))]
    rw [ih (fun x hx => hok x (List.mem_cons_of_mem m hx)) (k + 1) (acc ++ [m])]
    simp

/-- C7 (amended).  The outbound pump stops when the (closed) queue is
drained or a message fails to marshal; transport write outcomes cannot
influence it at all, since their result is discarded — it keeps looping
and writing after a failed write, never closes the transport itself, and
always signals its termination.  When every queued message marshals it
attempts a write for every message in the queue. -/
theorem c7_theorem (queue : List Msg) (w1 w2 : Nat → Bool) :
    writeLoopRun queue w1 = writeLoopRun queue w2 ∧
    (writeLoopRun queue w1).connClosed = false ∧
    (writeLoopRun queue w1).signaled = true ∧
    ((∀ m, m ∈ queue → marshalOk m = true) →
      (writeLoopRun queue w1).attempts = queue) := by
  refine ⟨writeLoopGo_oracle_free w1 w2 queue 0 0 [],
    (writeLoopGo_flags w1 queue 0 []).1,
    (writeLoopGo_flags w1 queue 0 []).2, fun h => ?_⟩
  rw [writeLoopRun, writeLoopGo_attempts w1 queue h 0 []]
  rfl

theorem c7_theorem_witness :
    (writeLoopRun [mA] (fun _ => false)).attempts = [mA] :=
  (c7_theorem [mA] (fun _ => false) (fun _ => true)).2.2.2 (by decide)

/-! ## 11. Codec roundtrip: grammar predicates -/

/-- Characters `compact` leaves alone. -/
def htmlFreeChar (c : Char) : Bool :=
  !(c = '<' || c = '>' || c = '&' || c.toNat = 0x2028 || c.toNat = 0x2029)

theorem escHtmlChar_id {c : Char} (h : htmlFreeChar c = true) :
    escHtmlChar c = [c] := by
  unfold htmlFreeChar at h
  unfold escHtmlChar
  simp only [Bool.not_eq_true', Bool.or_eq_false_iff, decide_eq_false_iff_not] at h
  rw [if_neg h.1.1.1.1, if_neg h.1.1.1.2, if_neg h.1.1.2, if_neg h.1.2, if_neg h.2]

theorem flatMap_escHtml_id {l : List Char} (h : l.all htmlFreeChar = true) :
    l.flatMap escHtmlChar = l := by
  induction l with
  | nil => rfl
  | cons c rest ih =>
    rw [List.all_cons, Bool.and_eq_true] at h
    rw [List.flatMap_cons, escHtmlChar_id h.1, ih h.2]
    rfl

/-- A character that could extend or break a just-scanned number literal
if it followed it directly. -/
def numExtChar (c : Char) : Bool :=
  c.isDigit || c = '.' || c = 'e' || c = 'E' || c = '+' || c = '-'

/-- The remainder may follow a rendered value without disturbing it. -/
def nextOkB : List Char → Bool
  | [] => true
  | c :: _ => !numExtChar c

def digitsOnly (l : List Char) : Bool := l.all (fun c => c.isDigit)

/-- Integer part: `0` or a nonzero digit followed by digits. -/
def intLitOk : List Char → Bool
  | [] => false
  | c :: rest => if c = '0' then rest.isEmpty else c.isDigit && digitsOnly rest

/-- Optional fraction part. -/
def fracLitOk : List Char → Bool
  | [] => true
  | c :: ds => c = '.' && !ds.isEmpty && digitsOnly ds

/-- Optional exponent part. -/
def expLitOk : List Char → Bool
  | [] => true
  | e :: rest =>
    (e = 'e' || e = 'E') &&
      (match rest with
       | c :: ds2 =>
         if c = '+' ∨ c = '-' then !ds2.isEmpty && digitsOnly ds2
         else digitsOnly (c :: ds2)
       | [] => false)

/-- Shapes of JSON number literals, split as the scanner consumes
them. -/
inductive NumLit : List Char → Prop where
  | mk (sign ipart fpart epart : List Char) :
      (sign = [] ∨ sign = ['-']) →
      intLitOk ipart = true → fracLitOk fpart = true → expLitOk epart = true →
      NumLit (sign ++ ipart ++ fpart ++ epart)

theorem takeDigits_complete :
    ∀ {ds : List Char}, digitsOnly ds = true →
    ∀ {r : List Char}, (r = [] ∨ ∃ c r2, r = c :: r2 ∧ c.isDigit = false) →
    takeDigits (ds ++ r) = (ds, r) := by
  intro ds
  induction ds with
  | nil =>
    intro _ r hr
    rcases hr with h | ⟨c, r2, hcr, hc⟩
    · subst h; rfl
    · subst hcr
      simp [takeDigits, hc]
  | cons d rest ih =>
    intro h r hr
    rw [digitsOnly, List.all_cons, Bool.and_eq_true] at h
    simp only [List.cons_append, takeDigits, h.1, if_pos, List.append_eq]
    rw [ih h.2 hr]

theorem nextOkB_shape {r : List Char} (h : nextOkB r = true) :
    r = [] ∨ ∃ c r2, r = c :: r2 ∧ c.isDigit = false := by
  cases r with
  | nil => exact Or.inl rfl
  | cons c r2 =>
    refine Or.inr ⟨c, r2, rfl, ?_⟩
    simp only [nextOkB, numExtChar, Bool.not_eq_true', Bool.or_eq_false_iff] at h
    exact h.1.1.1.1.1

theorem digit_not_special {c : Char} (h : c.isDigit = true) :
    c ≠ '+' ∧ c ≠ '-' ∧ c ≠ '.' ∧ c ≠ 'e' ∧ c ≠ 'E' := by
  simp only [Char.isDigit] at h
  rw [Bool.and_eq_true, decide_eq_true_iff, decide_eq_true_iff] at h
  refine ⟨?_, ?_, ?_, ?_, ?_⟩ <;> (intro he; subst he; revert h; decide)

theorem scanExpSign_complete (acc pre : List Char) {sgn ds rest : List Char}
    (hsgn : sgn = [] ∨ sgn = ['+'] ∨ sgn = ['-'])
    (hne : ds.isEmpty = false) (hds : digitsOnly ds = true)
    (hr : nextOkB rest = true) :
    scanNumber.scanNumberExpSign acc pre (sgn ++ ds ++ rest) =
      some (acc ++ pre ++ sgn ++ ds, rest) := by
  cases ds with
  | nil => simp at hne
  | cons d dtl =>
    have hd : d.isDigit = true := by
      rw [digitsOnly, List.all_cons, Bool.and_eq_true] at hds
      exact hds.1
    have htd := takeDigits_complete hds (nextOkB_shape hr)
    have htd2 : takeDigits (d :: (dtl ++ rest)) = (d :: dtl, rest) := htd
    rcases hsgn with h | h | h <;> subst h
    · simp only [List.nil_append, List.cons_append, scanNumber.scanNumberExpSign]
      rw [if_neg (by
        rintro (he | he) <;> subst he
        · exact (digit_not_special hd).1 rfl
        · exact (digit_not_special hd).2.1 rfl)]
      rw [htd2]
      simp
    · simp only [List.cons_append, List.nil_append, scanNumber.scanNumberExpSign]
      rw [if_pos (Or.inl trivial)]
      rw [htd2]
      simp
    · simp only [List.cons_append, List.nil_append, scanNumber.scanNumberExpSign]
      rw [if_pos (Or.inr trivial)]
      rw [htd2]
      simp

theorem scanExp_complete (acc : List Char) {e rest : List Char}
    (he : expLitOk e = true) (hr : nextOkB rest = true) :
    scanNumber.scanNumberExp acc (e ++ rest) =
      some (acc ++ e, rest) := by
  cases e with
  | nil =>
    cases rest with
    | nil => simp [scanNumber.scanNumberExp]
    | cons c r =>
      simp only [nextOkB, numExtChar, Bool.not_eq_true',
        Bool.or_eq_false_iff, decide_eq_false_iff_not] at hr
      simp only [List.nil_append, scanNumber.scanNumberExp]
      rw [if_neg (by rintro (h | h) <;> [exact hr.1.1.1.2 h; exact hr.1.1.2 h])]
      simp
  | cons e0 etl =>
    simp only [expLitOk, Bool.and_eq_true, Bool.or_eq_true, decide_eq_true_iff] at he
    obtain ⟨he0, htl⟩ := he
    simp only [List.cons_append, scanNumber.scanNumberExp]
    rw [if_pos he0]
    cases etl with
    | nil => simp at htl
    | cons c1 dtl =>
      have htl2 : (if c1 = '+' ∨ c1 = '-' then !dtl.isEmpty && digitsOnly dtl
          else digitsOnly (c1 :: dtl)) = true := htl
      by_cases hc1 : c1 = '+' ∨ c1 = '-'
      · rw [if_pos hc1] at htl2
        rw [Bool.and_eq_true, Bool.not_eq_true'] at htl2
        have := @scanExpSign_complete acc [e0] [c1] dtl rest
          (by rcases hc1 with h | h <;> subst h <;> simp) htl2.1 htl2.2 hr
        simp only [List.cons_append, List.nil_append] at this ⊢
        rw [this]
        simp
      · rw [if_neg hc1] at htl2
        have := @scanExpSign_complete acc [e0] [] (c1 :: dtl) rest
          (Or.inl rfl) (by simp) htl2 hr
        simp only [List.cons_append, List.nil_append] at this ⊢
        rw [this]
        simp

theorem expRest_shape {e rest : List Char} (he : expLitOk e = true)
    (hr : nextOkB rest = true) :
    e ++ rest = [] ∨ ∃ c r2, e ++ rest = c :: r2 ∧ c.isDigit = false := by
  cases e with
  | nil => exact nextOkB_shape hr
  | cons e0 etl =>
    refine Or.inr ⟨e0, etl ++ rest, rfl, ?_⟩
    simp only [expLitOk, Bool.and_eq_true, Bool.or_eq_true,
      decide_eq_true_iff] at he
    rcases he.1 with h | h <;> subst h <;> decide

theorem fracExpRest_shape {f e rest : List Char} (hf : fracLitOk f = true)
    (he : expLitOk e = true) (hr : nextOkB rest = true) :
    f ++ (e ++ rest) = [] ∨
      ∃ c r2, f ++ (e ++ rest) = c :: r2 ∧ c.isDigit = false := by
  cases f with
  | nil => exact @expRest_shape e rest he hr
  | cons c0 ftl =>
    refine Or.inr ⟨c0, ftl ++ (e ++ rest), rfl, ?_⟩
    simp only [fracLitOk, Bool.and_eq_true, decide_eq_true_iff] at hf
    rw [hf.1.1]
    decide

theorem scanFrac_complete (acc : List Char) {f e rest : List Char}
    (hf : fracLitOk f = true) (he : expLitOk e = true)
    (hr : nextOkB rest = true) :
    scanNumber.scanNumberFrac acc (f ++ (e ++ rest)) =
      some (acc ++ f ++ e, rest) := by
  cases f with
  | nil =>
    cases e with
    | nil =>
      cases rest with
      | nil =>
        show scanNumber.scanNumberFrac acc [] = _
        simp [scanNumber.scanNumberFrac, scanNumber.scanNumberExp]
      | cons c r =>
        show scanNumber.scanNumberFrac acc (c :: r) = _
        have hc : ¬ c = '.' := by
          simp only [nextOkB, numExtChar, Bool.not_eq_true',
            Bool.or_eq_false_iff, decide_eq_false_iff_not] at hr
          exact hr.1.1.1.1.2
        simp only [scanNumber.scanNumberFrac]
        rw [if_neg hc]
        have := scanExp_complete acc (e := []) rfl hr
        simpa using this
    | cons e0 etl =>
      show scanNumber.scanNumberFrac acc (e0 :: (etl ++ rest)) = _
      have he0 : e0 = 'e' ∨ e0 = 'E' := by
        simp only [expLitOk, Bool.and_eq_true, Bool.or_eq_true,
          decide_eq_true_iff] at he
        exact he.1
      have hne : ¬ e0 = '.' := by
        rcases he0 with h | h <;> subst h <;> decide
      simp only [scanNumber.scanNumberFrac]
      rw [if_neg hne]
      have := scanExp_complete acc (e := e0 :: etl) he hr
      simpa using this
  | cons c0 ftl =>
    simp only [fracLitOk, Bool.and_eq_true, Bool.not_eq_true',
      decide_eq_true_iff] at hf
    obtain ⟨⟨hc0, hfe⟩, hdig⟩ := hf
    subst hc0
    show scanNumber.scanNumberFrac acc ('.' :: (ftl ++ (e ++ rest))) = _
    simp only [scanNumber.scanNumberFrac, if_true]
    have htd : takeDigits (ftl ++ (e ++ rest)) = (ftl, e ++ rest) :=
      takeDigits_complete hdig (expRest_shape he hr)
    rw [htd]
    cases ftl with
    | nil => simp at hfe
    | cons d dtl =>
      have := scanExp_complete (acc ++ '.' :: d :: dtl) (e := e) he hr
      show scanNumber.scanNumberExp (acc ++ '.' :: d :: dtl) (e ++ rest) = _
      rw [this]

theorem scanInt_complete (sign : List Char) {i f e rest : List Char}
    (hi : intLitOk i = true) (hf : fracLitOk f = true)
    (he : expLitOk e = true) (hr : nextOkB rest = true) :
    scanNumber.scanNumberInt (i ++ (f ++ (e ++ rest))) sign =
      some (sign ++ i ++ f ++ e, rest) := by
  cases i with
  | nil => simp [intLitOk] at hi
  | cons c itl =>
    simp only [intLitOk] at hi
    by_cases hc : c = '0'
    · subst hc
      rw [if_pos rfl] at hi
      have : itl = [] := by
        cases itl with
        | nil => rfl
        | cons x xs => simp at hi
      subst this
      show scanNumber.scanNumberInt ('0' :: (f ++ (e ++ rest))) sign = _
      simp only [scanNumber.scanNumberInt, if_true]
      have := scanFrac_complete (sign ++ ['0']) hf he hr
      rw [this]
    · rw [if_neg hc, Bool.and_eq_true] at hi
      show scanNumber.scanNumberInt (c :: (itl ++ (f ++ (e ++ rest)))) sign = _
      simp only [scanNumber.scanNumberInt]
      rw [if_neg hc, if_pos hi.1]
      have htd : takeDigits (itl ++ (f ++ (e ++ rest))) = (itl, f ++ (e ++ rest)) :=
        takeDigits_complete hi.2 (fracExpRest_shape hf he hr)
      simp only [htd]
      have := scanFrac_complete (sign ++ c :: itl) hf he hr
      show scanNumber.scanNumberFrac (sign ++ c :: itl) (f ++ (e ++ rest)) = _
      rw [this]

theorem scanNumber_complete {l rest : List Char} (h : NumLit l)
    (hr : nextOkB rest = true) :
    scanNumber (l ++ rest) = some (l, rest) := by
  obtain ⟨sign, i, f, e, hsgn, hi, hf, he⟩ := h
  have hint := fun (t : List Char) => @scanInt_complete t i f e rest
  cases i with
  | nil => simp [intLitOk] at hi
  | cons c itl =>
    have hcd : c.isDigit = true := by
      simp only [intLitOk] at hi
      by_cases hc : c = '0'
      · subst hc; decide
      · rw [if_neg hc, Bool.and_eq_true] at hi
        exact hi.1
    have hcm : ¬ c = '-' := by
      intro he2
      subst he2
      simp [Char.isDigit] at hcd
    rcases hsgn with h | h <;> subst h
    · show scanNumber ((c :: itl) ++ f ++ e ++ rest) = _
      simp only [List.append_assoc, List.cons_append, List.nil_append]
      simp only [scanNumber]
      rw [if_neg hcm]
      have := hint [] hi hf he hr
      simp only [List.cons_append, List.nil_append] at this ⊢
      rw [this]
      simp [List.append_assoc]
    · show scanNumber (('-' :: c :: itl) ++ f ++ e ++ rest) = _
      simp only [List.append_assoc, List.cons_append, List.nil_append]
      simp only [scanNumber, if_true]
      have := hint ['-'] hi hf he hr
      simp only [List.cons_append, List.nil_append] at this ⊢
      rw [this]
      simp [List.append_assoc]

/-- Valid scanner string bodies: what `scanStringContent` accepts up to
the closing quote. -/
def strBodyOk : List Char → Bool
  | [] => true
  | c :: rest =>
    if c = '\\' then
      match rest with
      | 'u' :: h1 :: h2 :: h3 :: h4 :: rest4 =>
        isHexDig h1 && isHexDig h2 && isHexDig h3 && isHexDig h4 &&
          strBodyOk rest4
      | e :: rest2 =>
        (e = '"' || e = '\\' || e = '/' || e = 'b' || e = 'f' ||
          e = 'n' || e = 'r' || e = 't') && strBodyOk rest2
      | [] => false
    else if c = '"' then false
    else if c.toNat < 0x20 then false
    else strBodyOk rest

theorem scanStringContent_complete :
    ∀ {body : List Char}, strBodyOk body = true →
    ∀ (rest : List Char),
    scanStringContent (body ++ '"' :: rest) = some (body, rest) := by
  intro body
  induction body using strBodyOk.induct with
  | case1 =>
    intro _ rest
    show scanStringContent ('"' :: rest) = _
    rw [scanStringContent.eq_def]
    simp
  | case2 h1 h2 h3 h4 rest4 ih =>
    intro hok rest
    simp only [strBodyOk, if_pos, Bool.and_eq_true] at hok
    have hs := ih hok.2 rest
    simp only [List.cons_append, scanStringContent,
      hok.1.1.1.1, hok.1.1.1.2, hok.1.1.2, hok.1.2]
    rw [if_neg (show ¬ ('\\' = '"') by decide),
      if_pos (show ((true && true && true && true) = true) by decide)]
    have hs2 : scanStringContent (rest4.append ('"' :: rest)) = some (rest4, rest) := hs
    rw [hs2]
    simp
  | case3 e rest2 hne ih =>
    intro hok rest
    simp only [strBodyOk, if_pos] at hok
    rw [Bool.and_eq_true] at hok
    simp only [List.cons_append]
    rw [scanStringContent.eq_def]
    dsimp only []
    rw [if_neg (show ¬ ('\\' = '"') by decide), if_pos rfl]
    split
    · rename_i h1 h2 h3 h4 rest4 heq
      injection heq with he _
      exact absurd hok.1 (by subst he; decide)
    · rename_i e2 rest2b heq
      injection heq with he hrest
      subst he
      subst hrest
      rw [if_pos hok.1, ih hok.2 rest]
    · rename_i heq
      exact absurd heq (by simp)
  | case4 =>
    intro hok
    simp [strBodyOk] at hok
  | case5 tl hn1 =>
    intro hok
    rw [strBodyOk.eq_def] at hok
    dsimp only [] at hok
    rw [if_neg hn1, if_pos rfl] at hok
    exact absurd hok (by simp)
  | case6 c tl hn1 hn2 hn3 =>
    intro hok
    rw [strBodyOk.eq_def] at hok
    dsimp only [] at hok
    rw [if_neg hn1, if_neg hn2, if_pos hn3] at hok
    exact absurd hok (by simp)
  | case7 c tl hn1 hn2 hn3 ih =>
    intro hok rest
    rw [strBodyOk.eq_def] at hok
    dsimp only [] at hok
    rw [if_neg hn1, if_neg hn2, if_neg hn3] at hok
    simp only [List.cons_append]
    rw [scanStringContent.eq_def]
    dsimp only []
    rw [if_neg hn2, if_neg hn1, if_neg hn3, ih hok rest]

theorem hexDigLower_isHex : ∀ n, n < 16 → isHexDig (hexDigLower n) = true := by
  decide

theorem hexVal_hexDigLower : ∀ n, n < 16 → hexVal (hexDigLower n) = n := by
  decide

theorem strBodyOk_escGo (l : List Char) : strBodyOk (escGoString l) = true := by
  induction l with
  | nil => rfl
  | cons c rest ih =>
    show strBodyOk (escGoChar c ++ escGoString rest) = true
    by_cases h1 : c = '"'
    · subst h1; simp [escGoChar, strBodyOk, ih]
    by_cases h2 : c = '\\'
    · subst h2; simp [escGoChar, strBodyOk, ih]
    by_cases h3 : c = '\n'
    · subst h3; simp [escGoChar, strBodyOk, ih]
    by_cases h4 : c = '\r'
    · subst h4; simp [escGoChar, strBodyOk, ih]
    by_cases h5 : c = '\t'
    · subst h5; simp [escGoChar, strBodyOk, ih]
    by_cases h6 : c.toNat < 0x20
    · have hesc : escGoChar c =
          ['\\', 'u', '0', '0', hexDigLower (c.toNat / 16),
            hexDigLower (c.toNat % 16)] := by
        rw [escGoChar, if_neg h1, if_neg h2, if_neg h3, if_neg h4, if_neg h5,
          if_pos h6]
      rw [hesc]
      have hx1 := hexDigLower_isHex (c.toNat / 16) (by omega)
      have hx2 := hexDigLower_isHex (c.toNat % 16) (Nat.mod_lt _ (by omega))
      have hx0 : isHexDig '0' = true := by decide
      simp [strBodyOk, hx0, hx1, hx2, ih]
    by_cases h7 : c = '<'
    · subst h7; simp [escGoChar, strBodyOk, ih] <;> decide
    by_cases h8 : c = '>'
    · subst h8; simp [escGoChar, strBodyOk, ih] <;> decide
    by_cases h9 : c = '&'
    · subst h9; simp [escGoChar, strBodyOk, ih] <;> decide
    by_cases h10 : c.toNat = 0x2028
    · have hesc : escGoChar c = ['\\', 'u', '2', '0', '2', '8'] := by
        rw [escGoChar, if_neg h1, if_neg h2, if_neg h3, if_neg h4, if_neg h5,
          if_neg h6, if_neg h7, if_neg h8, if_neg h9, if_pos h10]
      rw [hesc]
      simp [strBodyOk, ih] <;> decide
    by_cases h11 : c.toNat = 0x2029
    · have hesc : escGoChar c = ['\\', 'u', '2', '0', '2', '9'] := by
        rw [escGoChar, if_neg h1, if_neg h2, if_neg h3, if_neg h4, if_neg h5,
          if_neg h6, if_neg h7, if_neg h8, if_neg h9, if_neg h10, if_pos h11]
      rw [hesc]
      simp [strBodyOk, ih] <;> decide
    · have hesc : escGoChar c = [c] := by
        rw [escGoChar, if_neg h1, if_neg h2, if_neg h3, if_neg h4, if_neg h5,
          if_neg h6, if_neg h7, if_neg h8, if_neg h9, if_neg h10, if_neg h11]
      rw [hesc]
      show strBodyOk (c :: escGoString rest) = true
      rw [strBodyOk.eq_def]
      dsimp only []
      rw [if_neg h2, if_neg h1, if_neg h6]
      exact ih

theorem escGoChar_len (c : Char) : 1 ≤ (escGoChar c).length := by
  by_cases h1 : c = '"'
  · rw [escGoChar, if_pos h1]; exact Nat.succ_le_succ (Nat.zero_le _)
  by_cases h2 : c = '\\'
  · rw [escGoChar, if_neg h1, if_pos h2]; exact Nat.succ_le_succ (Nat.zero_le _)
  by_cases h3 : c = '\n'
  · rw [escGoChar, if_neg h1, if_neg h2, if_pos h3]
    exact Nat.succ_le_succ (Nat.zero_le _)
  by_cases h4 : c = '\r'
  · rw [escGoChar, if_neg h1, if_neg h2, if_neg h3, if_pos h4]
    exact Nat.succ_le_succ (Nat.zero_le _)
  by_cases h5 : c = '\t'
  · rw [escGoChar, if_neg h1, if_neg h2, if_neg h3, if_neg h4, if_pos h5]
    exact Nat.succ_le_succ (Nat.zero_le _)
  by_cases h6 : c.toNat < 0x20
  · rw [escGoChar, if_neg h1, if_neg h2, if_neg h3, if_neg h4, if_neg h5, if_pos h6]
    exact Nat.succ_le_succ (Nat.zero_le _)
  by_cases h7 : c = '<'
  · rw [escGoChar, if_neg h1, if_neg h2, if_neg h3, if_neg h4, if_neg h5, if_neg h6,
      if_pos h7]
    exact Nat.succ_le_succ (Nat.zero_le _)
  by_cases h8 : c = '>'
  · rw [escGoChar, if_neg h1, if_neg h2, if_neg h3, if_neg h4, if_neg h5, if_neg h6,
      if_neg h7, if_pos h8]
    exact Nat.succ_le_succ (Nat.zero_le _)
  by_cases h9 : c = '&'
  · rw [escGoChar, if_neg h1, if_neg h2, if_neg h3, if_neg h4, if_neg h5, if_neg h6,
      if_neg h7, if_neg h8, if_pos h9]
    exact Nat.succ_le_succ (Nat.zero_le _)
  by_cases h10 : c.toNat = 0x2028
  · rw [escGoChar, if_neg h1, if_neg h2, if_neg h3, if_neg h4, if_neg h5, if_neg h6,
      if_neg h7, if_neg h8, if_neg h9, if_pos h10]
    exact Nat.succ_le_succ (Nat.zero_le _)
  by_cases h11 : c.toNat = 0x2029
  · rw [escGoChar, if_neg h1, if_neg h2, if_neg h3, if_neg h4, if_neg h5, if_neg h6,
      if_neg h7, if_neg h8, if_neg h9, if_neg h10, if_pos h11]
    exact Nat.succ_le_succ (Nat.zero_le _)
  · rw [escGoChar, if_neg h1, if_neg h2, if_neg h3, if_neg h4, if_neg h5, if_neg h6,
      if_neg h7, if_neg h8, if_neg h9, if_neg h10, if_neg h11]
    exact Nat.succ_le_succ (Nat.zero_le _)

/-- One simple (two-character) escape at the head of the body. -/
theorem unescape_simple_step (f : Nat) (y c2 : Char) (E : List Char)
    (hy : (if y = '"' then some '"' else if y = '\\' then some '\\'
      else if y = '/' then some '/' else if y = 'b' then some (Char.ofNat 8)
      else if y = 'f' then some (Char.ofNat 12) else if y = 'n' then some '\n'
      else if y = 'r' then some '\r' else if y = 't' then some '\t'
      else none) = some c2)
    (hyu : y ≠ 'u') :
    unescapeBodyF (Nat.succ f) ('\\' :: y :: E) =
      match unescapeBodyF f E with
      | some cs => some (c2 :: cs)
      | none => none := by
  rw [unescapeBodyF.eq_def]
  dsimp only []
  rw [if_pos rfl]
  split
  · rename_i h1 h2 h3 h4 rest4 heq
    injection heq with heqy _
    exact absurd heqy hyu
  · rename_i e2 rest2 heq
    injection heq with he hr
    subst he
    subst hr
    rw [hy]
  · rename_i heq
    exact absurd heq (by simp)

/-- One non-surrogate six-character escape at the head of the body. -/
theorem unescape_u_step (f v : Nat) (a b g d : Char) (E : List Char)
    (hx : (isHexDig a && isHexDig b && isHexDig g && isHexDig d) = true)
    (hv : ((hexVal a * 16 + hexVal b) * 16 + hexVal g) * 16 + hexVal d = v)
    (u : ¬(0xD800 ≤ v ∧ v < 0xDC00))
    (w : ¬(0xDC00 ≤ v ∧ v < 0xE000)) :
    unescapeBodyF (Nat.succ f) ('\\' :: 'u' :: a :: b :: g :: d :: E) =
      match unescapeBodyF f E with
      | some cs => some (Char.ofNat v :: cs)
      | none => none := by
  rw [unescapeBodyF.eq_def]
  dsimp only []
  rw [if_pos rfl]
  split
  · rename_i x1 x2 x3 x4 r4 heq
    injection heq with _ heq
    injection heq with h1 heq
    injection heq with h2 heq
    injection heq with h3 heq
    injection heq with h4 hr
    subst h1; subst h2; subst h3; subst h4; subst hr
    rw [if_pos hx]
    rw [hv]
    rw [if_neg u, if_neg w]
  · rename_i e2 r2 heq h9
    injection h9 with he hr
    exact (heq a b g d E he.symm hr.symm).elim
  · rename_i heq
    exact absurd heq (by simp)

theorem unescape_escGo :
    ∀ (l : List Char) (fuel : Nat), (escGoString l).length < fuel →
    unescapeBodyF fuel (escGoString l) = some l := by
  intro l
  induction l with
  | nil =>
    intro fuel hf
    cases fuel with
    | zero => exact absurd hf (by simp)
    | succ f => rfl
  | cons c rest ih =>
    intro fuel hf
    have hlen : (escGoString (c :: rest)).length =
        (escGoChar c).length + (escGoString rest).length := by
      show (escGoChar c ++ escGoString rest).length = _
      rw [List.length_append]
    cases fuel with
    | zero => exact absurd hf (by simp)
    | succ f =>
      have hne := escGoChar_len c
      have hrec := ih f (by omega)
      show unescapeBodyF (Nat.succ f) (escGoChar c ++ escGoString rest) = _
      by_cases h1 : c = '"'
      · subst h1
        rw [show escGoChar '"' = ['\\', '"'] from rfl]
        show unescapeBodyF (Nat.succ f) ('\\' :: '"' :: escGoString rest) = _
        rw [unescape_simple_step f '"' '"' _ (by decide) (by decide), hrec]
      by_cases h2 : c = '\\'
      · subst h2
        rw [show escGoChar '\\' = ['\\', '\\'] from rfl]
        show unescapeBodyF (Nat.succ f) ('\\' :: '\\' :: escGoString rest) = _
        rw [unescape_simple_step f '\\' '\\' _ (by decide) (by decide), hrec]
      by_cases h3 : c = '\n'
      · subst h3
        rw [show escGoChar '\n' = ['\\', 'n'] from rfl]
        show unescapeBodyF (Nat.succ f) ('\\' :: 'n' :: escGoString rest) = _
        rw [unescape_simple_step f 'n' '\n' _ (by decide) (by decide), hrec]
      by_cases h4 : c = '\r'
      · subst h4
        rw [show escGoChar '\r' = ['\\', 'r'] from rfl]
        show unescapeBodyF (Nat.succ f) ('\\' :: 'r' :: escGoString rest) = _
        rw [unescape_simple_step f 'r' '\r' _ (by decide) (by decide), hrec]
      by_cases h5 : c = '\t'
      · subst h5
        rw [show escGoChar '\t' = ['\\', 't'] from rfl]
        show unescapeBodyF (Nat.succ f) ('\\' :: 't' :: escGoString rest) = _
        rw [unescape_simple_step f 't' '\t' _ (by decide) (by decide), hrec]
      by_cases h6 : c.toNat < 0x20
      · have hesc : escGoChar c =
            ['\\', 'u', '0', '0', hexDigLower (c.toNat / 16),
              hexDigLower (c.toNat % 16)] := by
          rw [escGoChar, if_neg h1, if_neg h2, if_neg h3, if_neg h4, if_neg h5,
            if_pos h6]
        rw [hesc]
        have hx1 := hexDigLower_isHex (c.toNat / 16) (by omega)
        have hx2 := hexDigLower_isHex (c.toNat % 16) (Nat.mod_lt _ (by omega))
        have hv1 := hexVal_hexDigLower (c.toNat / 16) (by omega)
        have hv2 := hexVal_hexDigLower (c.toNat % 16) (Nat.mod_lt _ (by omega))
        show unescapeBodyF (Nat.succ f)
          ('\\' :: 'u' :: '0' :: '0' :: hexDigLower (c.toNat / 16) ::
            hexDigLower (c.toNat % 16) :: escGoString rest) = _
        rw [unescape_u_step f c.toNat '0' '0' (hexDigLower (c.toNat / 16))
          (hexDigLower (c.toNat % 16)) (escGoString rest)
          (by rw [hx1, hx2]; decide)
          (by rw [hv1, hv2]
              have hv0 : hexVal '0' = 0 := by decide
              rw [hv0]
              omega)
          (by omega) (by omega), hrec, Char.ofNat_toNat]
      by_cases h7 : c = '<'
      · subst h7
        rw [show escGoChar '<' = ['\\', 'u', '0', '0', '3', 'c'] from rfl]
        show unescapeBodyF (Nat.succ f)
          ('\\' :: 'u' :: '0' :: '0' :: '3' :: 'c' :: escGoString rest) = _
        rw [unescape_u_step f 60 '0' '0' '3' 'c' (escGoString rest) (by decide)
          (by decide) (by decide) (by decide),
          show (Char.ofNat 60 : Char) = '<' from by decide, hrec]
      by_cases h8 : c = '>'
      · subst h8
        rw [show escGoChar '>' = ['\\', 'u', '0', '0', '3', 'e'] from rfl]
        show unescapeBodyF (Nat.succ f)
          ('\\' :: 'u' :: '0' :: '0' :: '3' :: 'e' :: escGoString rest) = _
        rw [unescape_u_step f 62 '0' '0' '3' 'e' (escGoString rest) (by decide)
          (by decide) (by decide) (by decide),
          show (Char.ofNat 62 : Char) = '>' from by decide, hrec]
      by_cases h9 : c = '&'
      · subst h9
        rw [show escGoChar '&' = ['\\', 'u', '0', '0', '2', '6'] from rfl]
        show unescapeBodyF (Nat.succ f)
          ('\\' :: 'u' :: '0' :: '0' :: '2' :: '6' :: escGoString rest) = _
        rw [unescape_u_step f 38 '0' '0' '2' '6' (escGoString rest) (by decide)
          (by decide) (by decide) (by decide),
          show (Char.ofNat 38 : Char) = '&' from by decide, hrec]
      by_cases h10 : c.toNat = 0x2028
      · have hesc : escGoChar c = ['\\', 'u', '2', '0', '2', '8'] := by
          rw [escGoChar, if_neg h1, if_neg h2, if_neg h3, if_neg h4, if_neg h5,
            if_neg h6, if_neg h7, if_neg h8, if_neg h9, if_pos h10]
        have hc : Char.ofNat 8232 = c := by
          conv_rhs => rw [← Char.ofNat_toNat c]
          rw [h10]
        rw [hesc]
        show unescapeBodyF (Nat.succ f)
          ('\\' :: 'u' :: '2' :: '0' :: '2' :: '8' :: escGoString rest) = _
        rw [unescape_u_step f 8232 '2' '0' '2' '8' (escGoString rest) (by decide)
          (by decide) (by decide) (by decide), hc, hrec]
      by_cases h11 : c.toNat = 0x2029
      · have hesc : escGoChar c = ['\\', 'u', '2', '0', '2', '9'] := by
          rw [escGoChar, if_neg h1, if_neg h2, if_neg h3, if_neg h4, if_neg h5,
            if_neg h6, if_neg h7, if_neg h8, if_neg h9, if_neg h10, if_pos h11]
        have hc : Char.ofNat 8233 = c := by
          conv_rhs => rw [← Char.ofNat_toNat c]
          rw [h11]
        rw [hesc]
        show unescapeBodyF (Nat.succ f)
          ('\\' :: 'u' :: '2' :: '0' :: '2' :: '9' :: escGoString rest) = _
        rw [unescape_u_step f 8233 '2' '0' '2' '9' (escGoString rest) (by decide)
          (by decide) (by decide) (by decide), hc, hrec]
      · have hesc : escGoChar c = [c] := by
          rw [escGoChar, if_neg h1, if_neg h2, if_neg h3, if_neg h4, if_neg h5,
            if_neg h6, if_neg h7, if_neg h8, if_neg h9, if_neg h10, if_neg h11]
        rw [hesc]
        show unescapeBodyF (Nat.succ f) (c :: escGoString rest) = _
        rw [unescapeBodyF.eq_def]
        dsimp only []
        rw [if_neg h2, hrec]

/-! ### Well-formed rendered values

The subset of `RawJson` whose compact rendering the parser provably
reads back: number literals and string bodies valid for the scanner and
free of the HTML-escapable bytes (so `compact` leaves them verbatim). -/

mutual
inductive WfJ : RawJson → Prop where
  | jnull : WfJ .jnull
  | jtrue : WfJ .jtrue
  | jfalse : WfJ .jfalse
  | jnum (lit : List Char) : NumLit lit → lit.all htmlFreeChar = true →
      WfJ (.jnum lit)
  | jstr (body : List Char) : strBodyOk body = true →
      body.all htmlFreeChar = true → WfJ (.jstr body)
  | jarr (es : RawElems) : WfE es → WfJ (.jarr es)
  | jobj (fs : RawFields) : WfF fs → WfJ (.jobj fs)

inductive WfE : RawElems → Prop where
  | nil : WfE .nil
  | cons (v : RawJson) (tl : RawElems) : WfJ v → WfE tl → WfE (.cons v tl)

inductive WfF : RawFields → Prop where
  | nil : WfF .nil
  | cons (k : List Char) (v : RawJson) (tl : RawFields) :
      strBodyOk k = true → k.all htmlFreeChar = true → WfJ v → WfF tl →
      WfF (.cons k v tl)
end

/- Number of parser steps needed for a value: one `parseValue` call per
value plus one `parseElems`/`parseFields` call per element/field. -/
mutual
def sizeJ : RawJson → Nat
  | .jnull => 1
  | .jtrue => 1
  | .jfalse => 1
  | .jnum _ => 1
  | .jstr _ => 1
  | .jarr es => 1 + sizeE es
  | .jobj fs => 1 + sizeF fs

def sizeE : RawElems → Nat
  | .nil => 0
  | .cons v tl => 1 + sizeJ v + sizeE tl

def sizeF : RawFields → Nat
  | .nil => 0
  | .cons _ v tl => 1 + sizeJ v + sizeF tl
end

theorem dropWs_cons {c : Char} (r : List Char) (h : isJsonWs c = false) :
    dropWs (c :: r) = c :: r := by
  rw [dropWs, if_neg (by rw [h]; intro hx; exact absurd hx (by decide))]

theorem numLit_head {lit : List Char} (h : NumLit lit) :
    ∃ c r, lit = c :: r ∧ (c = '-' ∨ c.isDigit = true) := by
  obtain ⟨sign, i, f, e, hsgn, hi, _, _⟩ := h
  rcases hsgn with h | h <;> subst h
  · cases i with
    | nil => simp [intLitOk] at hi
    | cons c itl =>
      refine ⟨c, itl ++ f ++ e, by simp, Or.inr ?_⟩
      simp only [intLitOk] at hi
      by_cases hc : c = '0'
      · subst hc; decide
      · rw [if_neg hc, Bool.and_eq_true] at hi
        exact hi.1
  · exact ⟨'-', i ++ f ++ e, by simp, Or.inl rfl⟩

theorem renderCompact_head {v : RawJson} (hv : WfJ v) :
    ∃ c r, renderCompact v = c :: r ∧ isJsonWs c = false ∧ c ≠ ']' := by
  cases hv with
  | jnull => exact ⟨'n', _, rfl, by decide, by decide⟩
  | jtrue => exact ⟨'t', _, rfl, by decide, by decide⟩
  | jfalse => exact ⟨'f', _, rfl, by decide, by decide⟩
  | jnum lit hn hh =>
    obtain ⟨c, r, he, hc⟩ := numLit_head hn
    refine ⟨c, r, ?_, ?_, ?_⟩
    · show lit.flatMap escHtmlChar = c :: r
      rw [flatMap_escHtml_id hh, he]
    · rcases hc with h | h
      · subst h; decide
      · simp only [isJsonWs, Bool.or_eq_false_iff, decide_eq_false_iff_not]
        have := digit_not_special h
        refine ⟨⟨⟨?_, ?_⟩, ?_⟩, ?_⟩ <;> intro hx <;> subst hx <;>
          exact absurd h (by decide)
    · rcases hc with h | h
      · subst h; decide
      · intro hx; subst hx; exact absurd h (by decide)
  | jstr body hb hh => exact ⟨'"', _, rfl, by decide, by decide⟩
  | jarr es he => exact ⟨'[', _, rfl, by decide, by decide⟩
  | jobj fs hf => exact ⟨lbrace, _, rfl, by decide, by decide⟩

theorem numLit_ne_nil {lit : List Char} (h : NumLit lit) : lit ≠ [] := by
  obtain ⟨c, r, he, _⟩ := numLit_head h
  rw [he]
  exact List.cons_ne_nil c r

theorem renderElemsTail_len (es : RawElems) :
    (renderElemsTail es).length ≤ (renderElems es).length + 1 := by
  cases es with
  | nil => simp [renderElemsTail, renderElems]
  | cons v tl => simp [renderElemsTail, renderElems]

theorem renderFieldsTail_len (fs : RawFields) :
    (renderFieldsTail fs).length ≤ (renderFields fs).length + 1 := by
  cases fs with
  | nil => simp [renderFieldsTail, renderFields]
  | cons k v tl => simp [renderFieldsTail, renderFields]

mutual
theorem sizeJ_le : ∀ (v : RawJson), WfJ v → sizeJ v ≤ (renderCompact v).length
  | .jnull, _ => by decide
  | .jtrue, _ => by decide
  | .jfalse, _ => by decide
  | .jnum lit, h => by
    cases h with
    | jnum _ hn hh =>
      show 1 ≤ (lit.flatMap escHtmlChar).length
      rw [flatMap_escHtml_id hh]
      obtain ⟨c, r, he, _⟩ := numLit_head hn
      rw [he]
      simp
  | .jstr body, _ => by
    show 1 ≤ ('"' :: body.flatMap escHtmlChar ++ ['"']).length
    simp
  | .jarr es, h => by
    cases h with
    | jarr _ he =>
      show 1 + sizeE es ≤ ('[' :: renderElems es ++ [']']).length
      have h1 := sizeE_le es he
      have h2 := renderElemsTail_len es
      simp only [List.length_cons, List.length_append, List.length_singleton]
      omega
  | .jobj fs, h => by
    cases h with
    | jobj _ hf =>
      show 1 + sizeF fs ≤ (lbrace :: renderFields fs ++ [rbrace]).length
      have h1 := sizeF_le fs hf
      have h2 := renderFieldsTail_len fs
      simp only [List.length_cons, List.length_append, List.length_singleton]
      omega

theorem sizeE_le : ∀ (es : RawElems), WfE es →
    sizeE es ≤ (renderElemsTail es).length
  | .nil, _ => Nat.le.refl
  | .cons v tl, h => by
    cases h with
    | cons _ _ hv htl =>
      show 1 + sizeJ v + sizeE tl ≤
        (',' :: renderCompact v ++ renderElemsTail tl).length
      have h1 := sizeJ_le v hv
      have h2 := sizeE_le tl htl
      simp only [List.length_cons, List.length_append]
      omega

theorem sizeF_le : ∀ (fs : RawFields), WfF fs →
    sizeF fs ≤ (renderFieldsTail fs).length
  | .nil, _ => Nat.le.refl
  | .cons k v tl, h => by
    cases h with
    | cons _ _ _ hk hh hv htl =>
      show 1 + sizeJ v + sizeF tl ≤
        (',' :: '"' :: k.flatMap escHtmlChar ++ '"' :: ':' :: renderCompact v ++
          renderFieldsTail tl).length
      have h1 := sizeJ_le v hv
      have h2 := sizeF_le tl htl
      simp only [List.length_cons, List.length_append]
      omega
end

theorem pv_null (f : Nat) (r : List Char) :
    parseValue (Nat.succ f) ('n' :: 'u' :: 'l' :: 'l' :: r) =
      some (.jnull, r) := by
  rw [parseValue.eq_def]
  dsimp only []
  rw [if_pos rfl]
  split
  · rename_i r2 heq
    injection heq with _ heq
    injection heq with _ heq
    injection heq with _ heq
    rw [heq]
  · rename_i hno
    exact (hno r rfl).elim

theorem pv_true (f : Nat) (r : List Char) :
    parseValue (Nat.succ f) ('t' :: 'r' :: 'u' :: 'e' :: r) =
      some (.jtrue, r) := by
  rw [parseValue.eq_def]
  dsimp only []
  rw [if_neg (by decide), if_pos rfl]
  split
  · rename_i r2 heq
    injection heq with _ heq
    injection heq with _ heq
    injection heq with _ heq
    rw [heq]
  · rename_i hno
    exact (hno r rfl).elim

theorem pv_false (f : Nat) (r : List Char) :
    parseValue (Nat.succ f) ('f' :: 'a' :: 'l' :: 's' :: 'e' :: r) =
      some (.jfalse, r) := by
  rw [parseValue.eq_def]
  dsimp only []
  rw [if_neg (by decide), if_neg (by decide), if_pos rfl]
  split
  · rename_i r2 heq
    injection heq with _ heq
    injection heq with _ heq
    injection heq with _ heq
    injection heq with _ heq
    rw [heq]
  · rename_i hno
    exact (hno r rfl).elim

theorem pv_str (f : Nat) (s : List Char) :
    parseValue (Nat.succ f) ('"' :: s) =
      match scanStringContent s with
      | some (body, r) => some (.jstr body, r)
      | none => none := by
  rw [parseValue.eq_def]
  dsimp only []
  rw [if_neg (by decide), if_neg (by decide), if_neg (by decide), if_pos rfl]

theorem pv_arr_nil (f : Nat) {s r : List Char} (h : dropWs s = ']' :: r) :
    parseValue (Nat.succ f) ('[' :: s) = some (.jarr .nil, r) := by
  rw [parseValue.eq_def]
  dsimp only []
  rw [if_neg (by decide), if_neg (by decide), if_neg (by decide),
    if_neg (by decide), if_pos rfl, h]
  split
  · rename_i r2 heq
    injection heq with _ hr
    rw [hr]
  · rename_i hno
    exact (hno r rfl).elim

theorem pv_arr_cons (f : Nat) {s : List Char} {c : Char} {r : List Char}
    (h : dropWs s = c :: r) (hc : c ≠ ']') :
    parseValue (Nat.succ f) ('[' :: s) =
      match parseElems f (c :: r) with
      | some (es, r2) => some (.jarr es, r2)
      | none => none := by
  rw [parseValue.eq_def]
  dsimp only []
  rw [if_neg (by decide), if_neg (by decide), if_neg (by decide),
    if_neg (by decide), if_pos rfl, h]
  split
  · rename_i r2 heq
    injection heq with he _
    exact absurd he hc
  · rfl

theorem pv_obj_nil (f : Nat) {s r : List Char} (h : dropWs s = rbrace :: r) :
    parseValue (Nat.succ f) (lbrace :: s) = some (.jobj .nil, r) := by
  rw [parseValue.eq_def]
  dsimp only []
  rw [if_neg (by decide), if_neg (by decide), if_neg (by decide),
    if_neg (by decide), if_neg (by decide), if_pos rfl, h]
  dsimp only []
  rw [if_pos rfl]

theorem pv_obj_cons (f : Nat) {s : List Char} {d : Char} {r : List Char}
    (h : dropWs s = d :: r) (hd : ¬ d = rbrace) :
    parseValue (Nat.succ f) (lbrace :: s) =
      match parseFields f (d :: r) with
      | some (fs, r2) => some (.jobj fs, r2)
      | none => none := by
  rw [parseValue.eq_def]
  dsimp only []
  rw [if_neg (by decide), if_neg (by decide), if_neg (by decide),
    if_neg (by decide), if_neg (by decide), if_pos rfl, h]
  dsimp only []
  rw [if_neg hd]

theorem pv_num (f : Nat) {c : Char} (s : List Char)
    (h1 : ¬ c = 'n') (h2 : ¬ c = 't') (h3 : ¬ c = 'f') (h4 : ¬ c = '"')
    (h5 : ¬ c = '[') (h6 : ¬ c = lbrace) :
    parseValue (Nat.succ f) (c :: s) =
      match scanNumber (c :: s) with
      | some (lit, r) => some (.jnum lit, r)
      | none => none := by
  rw [parseValue.eq_def]
  dsimp only []
  rw [if_neg h1, if_neg h2, if_neg h3, if_neg h4, if_neg h5, if_neg h6]

theorem sizeJ_pos (v : RawJson) : 1 ≤ sizeJ v := by
  cases v <;> simp [sizeJ]

theorem digit_not_kw {c : Char} (h : c.isDigit = true) :
    ¬ c = 'n' ∧ ¬ c = 't' ∧ ¬ c = 'f' ∧ ¬ c = '"' ∧ ¬ c = '[' ∧
      ¬ c = lbrace := by
  refine ⟨?_, ?_, ?_, ?_, ?_, ?_⟩ <;> intro hx <;> subst hx <;>
    exact absurd h (by decide)

theorem nextOk_cons {c : Char} (r : List Char) (h : numExtChar c = false) :
    nextOkB (c :: r) = true := by
  simp [nextOkB, h]

theorem nextOk_elemsTail (tl : RawElems) (rest : List Char) :
    nextOkB (renderElemsTail tl ++ ']' :: rest) = true := by
  cases tl with
  | nil =>
    simp only [renderElemsTail, List.nil_append]
    exact nextOk_cons _ (by decide)
  | cons v tl2 =>
    simp only [renderElemsTail, List.cons_append]
    exact nextOk_cons _ (by decide)

theorem nextOk_fieldsTail (tl : RawFields) (rest : List Char) :
    nextOkB (renderFieldsTail tl ++ rbrace :: rest) = true := by
  cases tl with
  | nil =>
    simp only [renderFieldsTail, List.nil_append]
    exact nextOk_cons _ (by decide)
  | cons k v tl2 =>
    simp only [renderFieldsTail, List.cons_append]
    exact nextOk_cons _ (by decide)

theorem parse_complete : ∀ fl : Nat,
    (∀ (v : RawJson) (rest : List Char), WfJ v → sizeJ v ≤ fl →
      nextOkB rest = true →
      parseValue fl (renderCompact v ++ rest) = some (v, rest)) ∧
    (∀ (v : RawJson) (tl : RawElems) (rest : List Char), WfE (.cons v tl) →
      sizeE (.cons v tl) ≤ fl →
      parseElems fl (renderElems (.cons v tl) ++ ']' :: rest) =
        some (.cons v tl, rest)) ∧
    (∀ (k : List Char) (v : RawJson) (tl : RawFields) (rest : List Char),
      WfF (.cons k v tl) → sizeF (.cons k v tl) ≤ fl →
      parseFields fl (renderFields (.cons k v tl) ++ rbrace :: rest) =
        some (.cons k v tl, rest)) := by
  intro fl
  induction fl with
  | zero =>
    refine ⟨fun v rest hv hsz _ => ?_, fun v tl rest _ hsz => ?_,
      fun k v tl rest _ hsz => ?_⟩
    · exact absurd hsz (by have := sizeJ_pos v; omega)
    · exact absurd hsz (by simp only [sizeE]; omega)
    · exact absurd hsz (by simp only [sizeF]; omega)
  | succ f ih =>
    obtain ⟨ihJ, ihE, ihF⟩ := ih
    refine ⟨?_, ?_, ?_⟩
    · intro v rest hv hsz hr
      cases hv with
      | jnull =>
        simp only [renderCompact, List.cons_append, List.nil_append]
        exact pv_null f rest
      | jtrue =>
        simp only [renderCompact, List.cons_append, List.nil_append]
        exact pv_true f rest
      | jfalse =>
        simp only [renderCompact, List.cons_append, List.nil_append]
        exact pv_false f rest
      | jnum lit hn hh =>
        simp only [renderCompact]
        rw [flatMap_escHtml_id hh]
        obtain ⟨c, r, he, hc⟩ := numLit_head hn
        have hsc := scanNumber_complete hn hr
        have hkw : ¬ c = 'n' ∧ ¬ c = 't' ∧ ¬ c = 'f' ∧ ¬ c = '"' ∧
            ¬ c = '[' ∧ ¬ c = lbrace := by
          rcases hc with h | h
          · subst h
            exact ⟨by decide, by decide, by decide, by decide, by decide,
              by decide⟩
          · exact digit_not_kw h
        rw [he] at hsc ⊢
        simp only [List.cons_append] at hsc ⊢
        rw [pv_num f (r ++ rest) hkw.1 hkw.2.1 hkw.2.2.1 hkw.2.2.2.1
          hkw.2.2.2.2.1 hkw.2.2.2.2.2, hsc]
      | jstr body hb hh =>
        simp only [renderCompact]
        rw [flatMap_escHtml_id hh]
        simp only [List.cons_append, List.append_assoc, List.singleton_append, List.nil_append]
        rw [pv_str f (body ++ '"' :: rest), scanStringContent_complete hb rest]
      | jarr es hes =>
        cases hes with
        | nil =>
          simp only [renderCompact, renderElems, List.cons_append,
            List.nil_append, List.singleton_append, List.nil_append]
          exact pv_arr_nil f (dropWs_cons _ (by decide))
        | cons v2 tl2 hv2 htl2 =>
          simp only [renderCompact, renderElems, List.cons_append,
            List.append_assoc, List.singleton_append, List.nil_append]
          obtain ⟨c, r, hrc, hws, hne⟩ := renderCompact_head hv2
          have hdw : dropWs (renderCompact v2 ++
              (renderElemsTail tl2 ++ ']' :: rest)) =
              c :: (r ++ (renderElemsTail tl2 ++ ']' :: rest)) := by
            rw [hrc]
            simp only [List.cons_append]
            exact dropWs_cons _ hws
          rw [pv_arr_cons f hdw hne]
          have hpe := ihE v2 tl2 rest (WfE.cons _ _ hv2 htl2)
            (by simp only [sizeJ] at hsz; omega)
          simp only [renderElems, List.append_assoc, List.nil_append] at hpe
          rw [hrc] at hpe
          simp only [List.cons_append] at hpe
          rw [hpe]
      | jobj fs hfs =>
        cases hfs with
        | nil =>
          simp only [renderCompact, renderFields, List.cons_append,
            List.nil_append, List.singleton_append, List.nil_append]
          exact pv_obj_nil f (dropWs_cons _ (by decide))
        | cons k2 v2 tl2 hk2 hh2 hv2 htl2 =>
          simp only [renderCompact, renderFields, List.cons_append,
            List.append_assoc, List.singleton_append, List.nil_append]
          rw [flatMap_escHtml_id hh2]
          rw [pv_obj_cons f (dropWs_cons _ (by decide)) (by decide)]
          have hpf := ihF k2 v2 tl2 rest (WfF.cons _ _ _ hk2 hh2 hv2 htl2)
            (by simp only [sizeJ] at hsz; omega)
          simp only [renderFields, List.cons_append, List.append_assoc, List.nil_append] at hpf
          rw [flatMap_escHtml_id hh2] at hpf
          rw [hpf]
    · intro v tl rest hw hsz
      cases hw with
      | cons _ _ hv htl =>
        rw [parseElems.eq_def]
        dsimp only []
        simp only [renderElems, List.append_assoc, List.nil_append]
        have hpv := ihJ v (renderElemsTail tl ++ ']' :: rest) hv
          (by simp only [sizeE] at hsz; omega) (nextOk_elemsTail tl rest)
        rw [hpv]
        dsimp only []
        cases htl with
        | nil =>
          simp only [renderElemsTail, List.nil_append]
          rw [dropWs_cons _ (by decide)]
          split
          · rename_i r2 heq
            exact absurd heq (by simp)
          · rename_i r2 heq
            injection heq with _ hr2
            rw [hr2]
          · rename_i hno1 hno2
            exact (hno2 rest rfl).elim
        | cons v2 tl2 hv2 htl2 =>
          simp only [renderElemsTail, List.cons_append, List.append_assoc]
          rw [dropWs_cons _ (by decide)]
          split
          · rename_i r2 heq
            injection heq with _ hr2
            obtain ⟨c2, r', hrc2, hws2, _⟩ := renderCompact_head hv2
            have hdw2 : dropWs r2 =
                c2 :: (r' ++ (renderElemsTail tl2 ++ ']' :: rest)) := by
              rw [← hr2, hrc2]
              simp only [List.cons_append]
              exact dropWs_cons _ hws2
            rw [hdw2]
            have hpe2 := ihE v2 tl2 rest (WfE.cons _ _ hv2 htl2)
              (by simp only [sizeE] at hsz ⊢; omega)
            simp only [renderElems, List.append_assoc, List.nil_append] at hpe2
            rw [hrc2] at hpe2
            simp only [List.cons_append] at hpe2
            rw [hpe2]
          · rename_i r2 heq
            exact absurd heq (by simp)
          · rename_i hno1 hno2
            exact (hno1 (renderCompact v2 ++
              (renderElemsTail tl2 ++ ']' :: rest)) rfl).elim
    · intro k v tl rest hw hsz
      cases hw with
      | cons _ _ _ hk hh hv htl =>
        simp only [renderFields, List.cons_append, List.append_assoc, List.nil_append]
        rw [flatMap_escHtml_id hh]
        rw [parseFields.eq_def]
        dsimp only []
        split
        · rename_i rest1 heq
          injection heq with _ hr1
          rw [← hr1]
          rw [scanStringContent_complete hk
            (':' :: (renderCompact v ++ (renderFieldsTail tl ++
              rbrace :: rest)))]
          dsimp only []
          rw [dropWs_cons _ (by decide)]
          split
          · rename_i r2 heq2
            injection heq2 with _ hr2
            rw [← hr2]
            obtain ⟨c2, r', hrc2, hws2, _⟩ := renderCompact_head hv
            have hdw2 : dropWs (renderCompact v ++
                (renderFieldsTail tl ++ rbrace :: rest)) =
                c2 :: (r' ++ (renderFieldsTail tl ++ rbrace :: rest)) := by
              rw [hrc2]
              simp only [List.cons_append]
              exact dropWs_cons _ hws2
            rw [hdw2]
            have hpv := ihJ v (renderFieldsTail tl ++ rbrace :: rest) hv
              (by simp only [sizeF] at hsz; omega) (nextOk_fieldsTail tl rest)
            rw [hrc2] at hpv
            simp only [List.cons_append] at hpv
            rw [hpv]
            dsimp only []
            cases htl with
            | nil =>
              simp only [renderFieldsTail, List.nil_append]
              rw [dropWs_cons _ (by decide)]
              split
              · rename_i r4 heq4
                injection heq4 with hd _
                exact absurd hd (by decide)
              · rename_i d r4 hc4 heq4
                injection heq4 with hd hr4
                rw [← hr4, if_pos hd.symm]
              · rename_i heq4
                exact absurd heq4 (by simp)
            | cons k2 v2 tl2 hk2 hh2 hv2 htl2 =>
              simp only [renderFieldsTail, List.cons_append, List.append_assoc]
              rw [dropWs_cons _ (by decide)]
              split
              · rename_i r4 heq4
                injection heq4 with _ hr4
                rw [← hr4]
                rw [dropWs_cons _ (by decide)]
                have hpf2 := ihF k2 v2 tl2 rest
                  (WfF.cons _ _ _ hk2 hh2 hv2 htl2)
                  (by simp only [sizeF] at hsz ⊢; omega)
                simp only [renderFields, List.cons_append,
                  List.append_assoc, List.nil_append] at hpf2
                rw [flatMap_escHtml_id hh2] at hpf2
                rw [flatMap_escHtml_id hh2, hpf2]
              · rename_i d r4 hc4 heq4
                injection heq4 with hd _
                exact (hc4 hd.symm).elim
              · rename_i heq4
                exact absurd heq4 (by simp)
          · rename_i hno
            exact (hno (renderCompact v ++ (renderFieldsTail tl ++
              rbrace :: rest)) rfl).elim
        · rename_i hno
          exact (hno (k ++ '"' :: ':' :: (renderCompact v ++
            (renderFieldsTail tl ++ rbrace :: rest))) rfl).elim

theorem compactFn_render {v : RawJson} (hv : WfJ v) :
    compactFn (renderCompact v) = .ok (renderCompact v) := by
  obtain ⟨c, r, hrc, hws, _⟩ := renderCompact_head hv
  have hpv := (parse_complete (4 * (renderCompact v).length + 4)).1 v [] hv
    (by have := sizeJ_le v hv; omega) (by decide)
  rw [List.append_nil] at hpv
  simp only [compactFn]
  have hdw : dropWs (renderCompact v) = renderCompact v := by
    rw [hrc]
    exact dropWs_cons _ hws
  rw [hdw, hpv]
  dsimp only []
  rw [if_pos (by decide)]

theorem encodeMessage_render (t : String) {v : RawJson} (hv : WfJ v) :
    encodeMessage { type := t, data := renderCompact v } =
      .ok (lbrace :: '"' :: 't' :: 'y' :: 'p' :: 'e' :: '"' :: ':' :: '"' ::
        escGoString t.toList ++ '"' :: ',' ::
        '"' :: 'd' :: 'a' :: 't' :: 'a' :: '"' :: ':' :: renderCompact v ++
        [rbrace]) := by
  simp only [encodeMessage]
  rw [compactFn_render hv]

theorem decodeFields_type (n : Nat) (tl r : List Char) (acc : Msg) :
    decodeFields (Nat.succ n)
      ('"' :: 't' :: 'y' :: 'p' :: 'e' :: '"' :: ':' :: '"' ::
        (escGoString tl ++ '"' :: ',' :: r)) acc =
      decodeFields n r { acc with type := String.mk tl } := by
  rw [decodeFields.eq_def]
  dsimp only []
  rw [dropWs_cons _ (by decide)]
  split
  · rename_i rest1 heq
    injection heq with _ hr1
    rw [← hr1]
    have hs1 : scanStringContent ('t' :: 'y' :: 'p' :: 'e' :: '"' ::
        (':' :: '"' :: (escGoString tl ++ '"' :: ',' :: r))) =
        some (['t', 'y', 'p', 'e'],
          ':' :: '"' :: (escGoString tl ++ '"' :: ',' :: r)) :=
      @scanStringContent_complete ['t', 'y', 'p', 'e'] (by decide) _
    rw [hs1]
    dsimp only []
    rw [show unescapeBody ['t', 'y', 'p', 'e'] = some ['t', 'y', 'p', 'e']
      from rfl]
    dsimp only []
    rw [dropWs_cons _ (by decide)]
    split
    · rename_i r2 heq2
      injection heq2 with _ hr2
      rw [← hr2]
      rw [dropWs_cons _ (by decide)]
      have hps : scanStringContent (escGoString tl ++ '"' :: (',' :: r)) =
          some (escGoString tl, ',' :: r) :=
        scanStringContent_complete (strBodyOk_escGo tl) _
      have hpv : parseValue
          (4 * ('"' :: (escGoString tl ++ '"' :: ',' :: r)).length + 4)
          ('"' :: (escGoString tl ++ '"' :: ',' :: r)) =
          some (.jstr (escGoString tl), ',' :: r) := by
        show parseValue
          (Nat.succ (4 * ('"' :: (escGoString tl ++ '"' :: ',' :: r)).length
            + 3)) ('"' :: (escGoString tl ++ '"' :: ',' :: r)) = _
        rw [pv_str, hps]
      rw [hpv]
      dsimp only []
      rw [if_pos rfl]
      rw [show unescapeBody (escGoString tl) = some tl from
        unescape_escGo tl _ (Nat.lt_succ_self _)]
      dsimp only []
      rw [dropWs_cons _ (by decide)]
      split
      · rename_i r3 heq3
        injection heq3 with _ hr3
        rw [hr3]
      · rename_i d r3 hc3 heq3
        injection heq3 with hd _
        exact (hc3 hd.symm).elim
      · rename_i heq3
        exact absurd heq3 (by simp)
    · rename_i hno
      exact (hno _ rfl).elim
  · rename_i hno
    exact (hno _ rfl).elim

theorem decodeFields_data (n : Nat) {v : RawJson} (hv : WfJ v) (acc : Msg) :
    decodeFields (Nat.succ n)
      ('"' :: 'd' :: 'a' :: 't' :: 'a' :: '"' :: ':' ::
        (renderCompact v ++ [rbrace])) acc =
      some ({ acc with data := renderCompact v }, []) := by
  obtain ⟨c, r, hrc, hws, _⟩ := renderCompact_head hv
  rw [decodeFields.eq_def]
  dsimp only []
  rw [dropWs_cons _ (by decide)]
  split
  · rename_i rest1 heq
    injection heq with _ hr1
    rw [← hr1]
    have hs1 : scanStringContent ('d' :: 'a' :: 't' :: 'a' :: '"' ::
        (':' :: (renderCompact v ++ [rbrace]))) =
        some (['d', 'a', 't', 'a'], ':' :: (renderCompact v ++ [rbrace])) :=
      @scanStringContent_complete ['d', 'a', 't', 'a'] (by decide) _
    rw [hs1]
    dsimp only []
    rw [show unescapeBody ['d', 'a', 't', 'a'] = some ['d', 'a', 't', 'a']
      from rfl]
    dsimp only []
    rw [dropWs_cons _ (by decide)]
    split
    · rename_i r2 heq2
      injection heq2 with _ hr2
      rw [← hr2]
      have hdw : dropWs (renderCompact v ++ [rbrace]) =
          renderCompact v ++ [rbrace] := by
        rw [hrc]
        simp only [List.cons_append]
        exact dropWs_cons _ hws
      rw [hdw]
      have hpv := (parse_complete
          (4 * (renderCompact v ++ [rbrace]).length + 4)).1 v [rbrace] hv
        (by have := sizeJ_le v hv
            simp only [List.length_append, List.length_cons, List.length_nil]
            omega)
        (by decide)
      rw [hpv]
      dsimp only []
      rw [if_neg (by decide), if_pos rfl]
      dsimp only []
      have hraw : (renderCompact v ++ [rbrace]).take
          ((renderCompact v ++ [rbrace]).length -
            ([rbrace] : List Char).length) = renderCompact v := by
        have hl : (renderCompact v ++ [rbrace]).length -
            ([rbrace] : List Char).length = (renderCompact v).length := by
          simp only [List.length_append, List.length_cons, List.length_nil]
          omega
        rw [hl]
        exact List.take_left _ _
      rw [hraw]
      rw [dropWs_cons _ (by decide)]
      split
      · rename_i r3 heq3
        injection heq3 with hd _
        exact absurd hd (by decide)
      · rename_i d r3 hc3 heq3
        injection heq3 with hd hr3
        rw [← hr3, if_pos hd.symm]
      · rename_i heq3
        exact absurd heq3 (by simp)
    · rename_i hno
      exact (hno _ rfl).elim
  · rename_i hno
    exact (hno _ rfl).elim

set_option maxHeartbeats 2000000 in
theorem decodeMessage_enc (t : String) {v : RawJson} (hv : WfJ v) :
    decodeMessage (lbrace :: '"' :: 't' :: 'y' :: 'p' :: 'e' :: '"' :: ':' ::
      '"' :: escGoString t.toList ++ '"' :: ',' ::
      '"' :: 'd' :: 'a' :: 't' :: 'a' :: '"' :: ':' :: renderCompact v ++
      [rbrace]) = some { type := t, data := renderCompact v } := by
  simp only [List.cons_append, List.append_assoc]
  simp only [decodeMessage]
  rw [dropWs_cons _ (by decide)]
  split
  · rename_i r heq
    injection heq with hd _
    exact absurd hd (by decide)
  · rename_i c rest1 hno heq
    injection heq with hc hrest
    rw [← hc, ← hrest, if_pos rfl]
    rw [dropWs_cons _ (by decide)]
    dsimp only []
    rw [if_neg (by decide)]
    have h1 : decodeFields
        (('"' :: 't' :: 'y' :: 'p' :: 'e' :: '"' :: ':' :: '"' ::
          (escGoString t.toList ++ '"' :: ',' ::
            ('"' :: 'd' :: 'a' :: 't' :: 'a' :: '"' :: ':' ::
              (renderCompact v ++ [rbrace])))).length + 1)
        ('"' :: 't' :: 'y' :: 'p' :: 'e' :: '"' :: ':' :: '"' ::
          (escGoString t.toList ++ '"' :: ',' ::
            ('"' :: 'd' :: 'a' :: 't' :: 'a' :: '"' :: ':' ::
              (renderCompact v ++ [rbrace]))))
        { type := "", data := [] } =
        decodeFields
          (('"' :: 't' :: 'y' :: 'p' :: 'e' :: '"' :: ':' :: '"' ::
            (escGoString t.toList ++ '"' :: ',' ::
              ('"' :: 'd' :: 'a' :: 't' :: 'a' :: '"' :: ':' ::
                (renderCompact v ++ [rbrace])))).length)
          ('"' :: 'd' :: 'a' :: 't' :: 'a' :: '"' :: ':' ::
            (renderCompact v ++ [rbrace]))
          { type := String.mk t.toList, data := [] } :=
      decodeFields_type
        (('"' :: 't' :: 'y' :: 'p' :: 'e' :: '"' :: ':' :: '"' ::
          (escGoString t.toList ++ '"' :: ',' ::
            ('"' :: 'd' :: 'a' :: 't' :: 'a' :: '"' :: ':' ::
              (renderCompact v ++ [rbrace])))).length)
        t.toList
        ('"' :: 'd' :: 'a' :: 't' :: 'a' :: '"' :: ':' ::
          (renderCompact v ++ [rbrace]))
        { type := "", data := [] }
    rw [h1]
    have h2 : decodeFields
        (('"' :: 't' :: 'y' :: 'p' :: 'e' :: '"' :: ':' :: '"' ::
          (escGoString t.toList ++ '"' :: ',' ::
            ('"' :: 'd' :: 'a' :: 't' :: 'a' :: '"' :: ':' ::
              (renderCompact v ++ [rbrace])))).length)
        ('"' :: 'd' :: 'a' :: 't' :: 'a' :: '"' :: ':' ::
          (renderCompact v ++ [rbrace]))
        { type := String.mk t.toList, data := [] } =
        some ({ type := String.mk t.toList, data := renderCompact v }, []) :=
      decodeFields_data
        (('t' :: 'y' :: 'p' :: 'e' :: '"' :: ':' :: '"' ::
          (escGoString t.toList ++ '"' :: ',' ::
            ('"' :: 'd' :: 'a' :: 't' :: 'a' :: '"' :: ':' ::
              (renderCompact v ++ [rbrace])))).length)
        hv { type := String.mk t.toList, data := [] }
    rw [h2]
    dsimp only []
    rw [if_pos (by decide)]
    rfl
  · rename_i heq
    exact absurd heq (by simp)

/-- C9 counterexample: the round-trip does not hold "for arbitrary
payload content including an empty payload".  `NewMessage` marshals the
message whose `Data` is the empty `json.RawMessage`, and `json.Marshal`
fails on it ("unexpected end of JSON input"), so an envelope with an
empty payload cannot even be encoded, let alone decoded back. -/
theorem c9_counterexample :
    encodeMessage { type := "test", data := [] } =
      .error "unexpected end of JSON input" := rfl

/-- C9 (corrected): for an arbitrary discriminator string and any
payload that is the compact, HTML-escape-free rendering of a
well-formed JSON value, encoding the envelope succeeds and decoding the
resulting bytes reproduces the discriminator and the payload exactly.
(For other payloads the claim fails: empty or invalid payloads make the
encoder error out, and payloads containing insignificant whitespace or
HTML-escapable bytes are rewritten by `compact` before transmission.) -/
theorem c9_theorem (t : String) (v : RawJson) (hv : WfJ v) :
    ∃ b, encodeMessage { type := t, data := renderCompact v } = .ok b ∧
      decodeMessage b = some { type := t, data := renderCompact v } :=
  ⟨_, encodeMessage_render t hv, decodeMessage_enc t hv⟩

/-- Witness for C9: the concrete envelope with discriminator "test" and
payload rendering the one-field object mapping "ok" to 1 round-trips. -/
theorem c9_theorem_witness :
    ∃ b, encodeMessage { type := "test", data := renderCompact (RawJson.jobj (RawFields.cons ['o', 'k'] (RawJson.jnum ['1']) RawFields.nil)) } = .ok b ∧
      decodeMessage b = some { type := "test", data := renderCompact (RawJson.jobj (RawFields.cons ['o', 'k'] (RawJson.jnum ['1']) RawFields.nil)) } :=
  c9_theorem "test" _ (WfJ.jobj _ (WfF.cons _ _ _ (by decide) (by decide)
    (WfJ.jnum _ (NumLit.mk [] ['1'] [] [] (Or.inl rfl) (by decide) (by decide)
      (by decide)) (by decide)) WfF.nil))

end Herald